import Mathlib

/-!
Verification of the call-duration analysis pipeline
(`scripts/analyze_call_durations.py`).

The script's core is a decode / extract / dedup pipeline over JSON-like
values.  We embed Python's JSON-representable values as the inductive
type `JVal` and translate the three core functions:

* `decode_payload`  — dict passthrough, base64+gzip+JSON strategy, plain
  JSON fallback, empty-dict fallback;
* `extract_call_data` — nested dict navigation, last-message selection,
  float difference, record construction;
* `process_webhooks` — first-occurrence dedup keyed on `callID`.

Python numbers (ints and floats as produced by `json.loads`) are
modelled as exact decimals `m / 10 ^ e`; decimal floats and their
differences are exact in this range, so the model is faithful for the
arithmetic the script performs.  Fallible Python operations (attribute
errors, `len` on numbers, dict `[-1]` lookups, hashing unhashable
values) are modelled in `Except String`.  The external libraries used
by `decode_payload` (`base64`, `gzip`, `json`, UTF-8 codecs) are
modelled executably at the level of their documented contracts:

* base64 over byte lists with the standard alphabet, decoding in the
  discarding mode the script actually calls (`validate=False`, the
  default): characters outside the alphabet are skipped, not rejected,
  and a padding `=` closes a group early;
* the gzip container as a two-byte magic header `0x1f 0x8b` followed by
  the body, with the DEFLATE body coding modelled as the identity;
* JSON text by a recursive serializer and a fuelled recursive-descent
  reader for the fragment the serializer emits (no escape sequences,
  no exponents; documents are restricted to `Canon`ical ones whose
  strings are plain printable ASCII);
* UTF-8 by its ASCII fragment (decoding succeeds iff all bytes < 128).
-/

/-- A JSON-representable Python value: `None`, `bool`, a number
(modelled as the exact decimal `m / 10 ^ e`), `str`, `list`, `dict`. -/
inductive JVal where
  | null
  | bool (b : Bool)
  | num (m : Int) (e : Nat)
  | str (s : String)
  | arr (elems : List JVal)
  | obj (fields : List (String × JVal))
deriving Repr

mutual

/-- Structural boolean equality on `JVal` (used to derive decidable
equality, which the `deriving` handler does not support for this nested
inductive). -/
def beqV : JVal → JVal → Bool
  | .null, .null => true
  | .bool a, .bool b => a == b
  | .num m e, .num m2 e2 => m == m2 && e == e2
  | .str s, .str t => s == t
  | .arr a, .arr b => beqArr a b
  | .obj a, .obj b => beqObj a b
  | _, _ => false

/-- Element-wise `beqV` on lists of values. -/
def beqArr : List JVal → List JVal → Bool
  | [], [] => true
  | a :: as, b :: bs => beqV a b && beqArr as bs
  | _, _ => false

/-- Element-wise `beqV` on association lists. -/
def beqObj : List (String × JVal) → List (String × JVal) → Bool
  | [], [] => true
  | (k, v) :: as, (k2, v2) :: bs => k == k2 && beqV v v2 && beqObj as bs
  | _, _ => false

end

mutual

theorem beqV_iff : ∀ a b, beqV a b = true ↔ a = b
  | .null, .null => by simp [beqV]
  | .bool _, .bool _ => by simp [beqV]
  | .num _ _, .num _ _ => by simp [beqV]
  | .str _, .str _ => by simp [beqV]
  | .arr a, .arr b => by
      simp only [beqV, beqArr_iff a b]
      exact ⟨fun h => by rw [h], fun h => by cases h; rfl⟩
  | .obj a, .obj b => by
      simp only [beqV, beqObj_iff a b]
      exact ⟨fun h => by rw [h], fun h => by cases h; rfl⟩
  | .null, .bool _ => by simp [beqV]
  | .null, .num _ _ => by simp [beqV]
  | .null, .str _ => by simp [beqV]
  | .null, .arr _ => by simp [beqV]
  | .null, .obj _ => by simp [beqV]
  | .bool _, .null => by simp [beqV]
  | .bool _, .num _ _ => by simp [beqV]
  | .bool _, .str _ => by simp [beqV]
  | .bool _, .arr _ => by simp [beqV]
  | .bool _, .obj _ => by simp [beqV]
  | .num _ _, .null => by simp [beqV]
  | .num _ _, .bool _ => by simp [beqV]
  | .num _ _, .str _ => by simp [beqV]
  | .num _ _, .arr _ => by simp [beqV]
  | .num _ _, .obj _ => by simp [beqV]
  | .str _, .null => by simp [beqV]
  | .str _, .bool _ => by simp [beqV]
  | .str _, .num _ _ => by simp [beqV]
  | .str _, .arr _ => by simp [beqV]
  | .str _, .obj _ => by simp [beqV]
  | .arr _, .null => by simp [beqV]
  | .arr _, .bool _ => by simp [beqV]
  | .arr _, .num _ _ => by simp [beqV]
  | .arr _, .str _ => by simp [beqV]
  | .arr _, .obj _ => by simp [beqV]
  | .obj _, .null => by simp [beqV]
  | .obj _, .bool _ => by simp [beqV]
  | .obj _, .num _ _ => by simp [beqV]
  | .obj _, .str _ => by simp [beqV]
  | .obj _, .arr _ => by simp [beqV]

theorem beqArr_iff : ∀ a b, beqArr a b = true ↔ a = b
  | [], [] => by simp [beqArr]
  | a :: as, b :: bs => by
      simp only [beqArr, Bool.and_eq_true, beqV_iff a b, beqArr_iff as bs]
      exact ⟨fun ⟨h1, h2⟩ => by rw [h1, h2], fun h => by cases h; exact ⟨rfl, rfl⟩⟩
  | [], _ :: _ => by simp [beqArr]
  | _ :: _, [] => by simp [beqArr]

theorem beqObj_iff : ∀ a b, beqObj a b = true ↔ a = b
  | [], [] => by simp [beqObj]
  | (k, v) :: as, (k2, v2) :: bs => by
      simp only [beqObj, Bool.and_eq_true, beqV_iff v v2, beqObj_iff as bs, beq_iff_eq]
      exact ⟨fun ⟨⟨h0, h1⟩, h2⟩ => by rw [h0, h1, h2],
             fun h => by cases h; exact ⟨⟨rfl, rfl⟩, rfl⟩⟩
  | [], _ :: _ => by simp [beqObj]
  | _ :: _, [] => by simp [beqObj]

end

instance : DecidableEq JVal := fun a b => decidable_of_iff _ (beqV_iff a b)

/-- Induction principle for `JVal` exposing list members of `arr` and
field values of `obj` (the auto-generated recursor for this nested
inductive is awkward to use directly). -/
theorem JVal.recAux (P : JVal → Prop)
    (hnull : P .null) (hbool : ∀ b, P (.bool b)) (hnum : ∀ m e, P (.num m e))
    (hstr : ∀ s, P (.str s))
    (harr : ∀ l, (∀ v ∈ l, P v) → P (.arr l))
    (hobj : ∀ l, (∀ kv ∈ l, P kv.2) → P (.obj l)) : ∀ v, P v := by
  have key : ∀ n (v : JVal), sizeOf v ≤ n → P v := by
    intro n
    induction n using Nat.strong_induction_on with
    | _ n ih =>
      intro v hv
      cases v with
      | null => exact hnull
      | bool b => exact hbool b
      | num m e => exact hnum m e
      | str s => exact hstr s
      | arr l =>
        refine harr l (fun u hu => ?_)
        have h1 := List.sizeOf_lt_of_mem hu
        have h2 : sizeOf (JVal.arr l) = 1 + sizeOf l := by simp
        exact ih (sizeOf u) (by omega) u le_rfl
      | obj l =>
        refine hobj l (fun kv hkv => ?_)
        have h1 := List.sizeOf_lt_of_mem hkv
        have h2 : sizeOf (JVal.obj l) = 1 + sizeOf l := by simp
        have h3 : sizeOf kv.2 < sizeOf kv := by
          obtain ⟨a, b⟩ := kv
          simp only [Prod.mk.sizeOf_spec]
          omega
        exact ih (sizeOf kv.2) (by omega) kv.2 le_rfl
  exact fun v => key (sizeOf v) v le_rfl

/-- First binding of key `k` in an association list (Python dict keys
are unique, so first-match lookup models dict lookup). -/
def fieldsGet (l : List (String × JVal)) (k : String) : Option JVal :=
  match l with
  | [] => none
  | (k2, v) :: t => if k2 = k then some v else fieldsGet t k

/-- Lookup with default: models Python's `d.get(k, default)` once `d`
is known to be a dict. -/
def fieldsGetD (l : List (String × JVal)) (k : String) (d : JVal) : JVal :=
  (fieldsGet l k).getD d

/-- Python truthiness of a JSON-representable value: `None`, `False`,
zero, and empty containers/strings are falsy. -/
def truthy : JVal → Bool
  | .null => false
  | .bool b => b
  | .num m _ => m != 0
  | .str s => s.data != []
  | .arr l => l != []
  | .obj l => l != []

/-- Value of the decimal `m / 10 ^ e` as a rational. -/
def decVal (m : Int) (e : Nat) : ℚ := (m : ℚ) / (10 : ℚ) ^ e

/-- Is `c` a decimal digit. -/
def isDig (c : Char) : Bool := decide (48 ≤ c.toNat) && decide (c.toNat ≤ 57)

/-- The digit character for `d < 10`. -/
def digitChar (d : Nat) : Char := Char.ofNat (48 + d)

/-- Numeric value of a digit string (most significant first). -/
def digitsToNat (ds : List Char) : Nat := ds.foldl (fun a c => a * 10 + (c.toNat - 48)) 0

/-- Fuelled accumulator loop producing the decimal digits of `n`. -/
def encNatAux : Nat → Nat → List Char → List Char
  | 0, _, acc => acc
  | fuel + 1, n, acc =>
    let acc2 := digitChar (n % 10) :: acc
    if n < 10 then acc2 else encNatAux fuel (n / 10) acc2

/-- Decimal digits of `n` (at least one digit, `"0"` for zero). -/
def encNat (n : Nat) : List Char := encNatAux (n + 1) n []

/-- Left-pad a digit string with zeros to length `e`. -/
def padZ (e : Nat) (ds : List Char) : List Char := List.replicate (e - ds.length) '0' ++ ds

/-- Decimal rendering of the number `m / 10 ^ e`; for `e = 0` an
integer literal, otherwise an integer part, a point, and exactly `e`
fractional digits. -/
def encNum (m : Int) (e : Nat) : List Char :=
  let sgn : List Char := if m < 0 then ['-'] else []
  let a := m.natAbs
  if e = 0 then sgn ++ encNat a
  else sgn ++ encNat (a / 10 ^ e) ++ '.' :: padZ e (encNat (a % 10 ^ e))

/-- Digit-run part of a number literal, after the optional sign: an
integer digit run, optionally followed by a point and a fractional
digit run.  Returns the value together with the unconsumed
remainder. -/
def parseNumCore (neg : Bool) (cs1 : List Char) : Option (JVal × List Char) :=
  let ds := cs1.takeWhile isDig
  let r1 := cs1.drop ds.length
  if ds = [] then none
  else
    let mkInt : Nat → Int := fun n => if neg then -(n : Int) else (n : Int)
    match r1 with
    | [] => some (.num (mkInt (digitsToNat ds)) 0, [])
    | c :: r2 =>
      if c = '.' then
        let fs := r2.takeWhile isDig
        if fs = [] then none
        else some (.num (mkInt (digitsToNat (ds ++ fs))) fs.length, r2.drop fs.length)
      else some (.num (mkInt (digitsToNat ds)) 0, c :: r2)

/-- Read a number literal: optional minus sign, then `parseNumCore`. -/
def parseNum : List Char → Option (JVal × List Char)
  | [] => none
  | c :: t => if c = '-' then parseNumCore true t else parseNumCore false (c :: t)

/-- Spelling of the JSON keyword for the null value. -/
def nullChars : List Char := 'n' :: ['u', 'l', 'l']

/-- Spelling of the JSON keyword for the true value. -/
def trueChars : List Char := 't' :: ['r', 'u', 'e']

/-- Spelling of the JSON keyword for the false value. -/
def falseChars : List Char := 'f' :: ['a', 'l', 's', 'e']

mutual

/-- JSON text of a value, as emitted by the serializer the model pairs
with its reader (no whitespace, no escape sequences, decimal numbers). -/
def encV : JVal → List Char
  | .null => nullChars
  | .bool true => trueChars
  | .bool false => falseChars
  | .num m e => encNum m e
  | .str s => '"' :: s.data ++ ['"']
  | .arr l => '[' :: encArrBody l
  | .obj l => '{' :: encObjBody l

/-- Body of an array (everything after the opening bracket). -/
def encArrBody : List JVal → List Char
  | [] => [']']
  | v :: vs => encV v ++ encArrTail vs

/-- Remaining elements of an array, each preceded by a comma. -/
def encArrTail : List JVal → List Char
  | [] => [']']
  | v :: vs => ',' :: (encV v ++ encArrTail vs)

/-- Body of an object (everything after the opening brace). -/
def encObjBody : List (String × JVal) → List Char
  | [] => ['}']
  | (k, v) :: t => '"' :: k.data ++ '"' :: ':' :: (encV v ++ encObjTail t)

/-- Remaining fields of an object, each preceded by a comma. -/
def encObjTail : List (String × JVal) → List Char
  | [] => ['}']
  | (k, v) :: t => ',' :: '"' :: k.data ++ '"' :: ':' :: (encV v ++ encObjTail t)

end

/-- Printable ASCII characters needing no JSON escaping. -/
def plainChar (c : Char) : Bool :=
  decide (32 ≤ c.toNat) && decide (c.toNat ≤ 126) && !(c = '"') && !(c = '\\')

mutual

/-- A canonical document: every string (and every object key) consists
of plain printable ASCII.  Such documents are exactly the ones the
modelled serializer can render without escape sequences. -/
def canonV : JVal → Bool
  | .null => true
  | .bool _ => true
  | .num _ _ => true
  | .str s => s.data.all plainChar
  | .arr l => canonArr l
  | .obj l => canonObj l

/-- All elements canonical. -/
def canonArr : List JVal → Bool
  | [] => true
  | v :: vs => canonV v && canonArr vs

/-- All keys plain and all values canonical. -/
def canonObj : List (String × JVal) → Bool
  | [] => true
  | (k, v) :: t => k.data.all plainChar && canonV v && canonObj t

end

/-- Read a string body after the opening quote: everything up to the
closing quote (the modelled fragment has no escape sequences). -/
def parseStrBody (r : List Char) : Option (String × List Char) :=
  let content := r.takeWhile (fun c => !(c = '"'))
  match r.drop content.length with
  | '"' :: rest => some (String.mk content, rest)
  | _ => none

/-- Read an object key: a quoted string followed by a colon. -/
def parseKey (cs : List Char) : Option (String × List Char) :=
  match cs with
  | '"' :: r =>
    (match parseStrBody r with
     | some (k, ':' :: r1) => some (k, r1)
     | _ => none)
  | _ => none

mutual

/-- Fuelled recursive-descent reader for the JSON fragment emitted by
`encV`.  Returns the value and the unconsumed remainder. -/
def parseV : Nat → List Char → Option (JVal × List Char)
  | 0, _ => none
  | _ + 1, [] => none
  | fuel + 1, c :: r =>
    if c = 'n' then
      (match r with
       | 'u' :: 'l' :: 'l' :: r2 => some (.null, r2)
       | _ => none)
    else if c = 't' then
      (match r with
       | 'r' :: 'u' :: 'e' :: r2 => some (.bool true, r2)
       | _ => none)
    else if c = 'f' then
      (match r with
       | 'a' :: 'l' :: 's' :: 'e' :: r2 => some (.bool false, r2)
       | _ => none)
    else if c = '"' then (parseStrBody r).map (fun p => (.str p.1, p.2))
    else if c = '[' then
      (match r with
       | [] => none
       | c2 :: r2 =>
         if c2 = ']' then some (.arr [], r2)
         else
           (parseV fuel (c2 :: r2)).bind (fun p =>
             (parseArrTail fuel p.2).bind (fun q =>
               some (.arr (p.1 :: q.1), q.2))))
    else if c = '{' then
      (match r with
       | [] => none
       | c2 :: r2 =>
         if c2 = '}' then some (.obj [], r2)
         else
           (parseKey (c2 :: r2)).bind (fun pk =>
             (parseV fuel pk.2).bind (fun pv =>
               (parseObjTail fuel pv.2).bind (fun q =>
                 some (.obj ((pk.1, pv.1) :: q.1), q.2)))))
    else parseNum (c :: r)
termination_by structural fuel => fuel

/-- Elements of an array after the first one: a comma and an element,
repeated, then the closing bracket. -/
def parseArrTail : Nat → List Char → Option (List JVal × List Char)
  | 0, _ => none
  | _ + 1, [] => none
  | fuel + 1, c :: r =>
    if c = ']' then some ([], r)
    else if c = ',' then
      (parseV fuel r).bind (fun p =>
        (parseArrTail fuel p.2).bind (fun q =>
          some (p.1 :: q.1, q.2)))
    else none
termination_by structural fuel => fuel

/-- Fields of an object after the first one: a comma and a field,
repeated, then the closing brace. -/
def parseObjTail : Nat → List Char → Option (List (String × JVal) × List Char)
  | 0, _ => none
  | _ + 1, [] => none
  | fuel + 1, c :: r =>
    if c = '}' then some ([], r)
    else if c = ',' then
      (parseKey r).bind (fun pk =>
        (parseV fuel pk.2).bind (fun pv =>
          (parseObjTail fuel pv.2).bind (fun q =>
            some ((pk.1, pv.1) :: q.1, q.2))))
    else none
termination_by structural fuel => fuel

end

/-- Model of `json.loads`: read one value consuming the whole input. -/
def jsonParse (s : String) : Option JVal :=
  match parseV (s.data.length + 1) s.data with
  | some (v, []) => some v
  | _ => none

/-- Model of `json.dumps` (compact separators). -/
def jsonEncode (v : JVal) : String := String.mk (encV v)

/-- Model of Python's `float(str)` for plain decimal literals: the
string must be exactly an optionally signed decimal number.  (Python
additionally accepts surrounding whitespace, exponents and
infinity/NaN spellings; those are outside the modelled fragment.) -/
def pyFloatStr (s : String) : Option (Int × Nat) :=
  match parseNum s.data with
  | some (.num m e, []) => some (m, e)
  | _ => none

/-- Model of Python's `float(x)` coercion, as an exact decimal:
succeeds on numbers, booleans and decimal-literal strings, fails
(raising `ValueError`/`TypeError` in Python) on everything else. -/
def pyFloat : JVal → Option (Int × Nat)
  | .num m e => some (m, e)
  | .bool b => some (if b then 1 else 0, 0)
  | .str s => pyFloatStr s
  | _ => none

/-- Exact difference of two decimals, as a decimal. -/
def decSub : Int × Nat → Int × Nat → Int × Nat
  | (m1, e1), (m2, e2) => (m1 * 10 ^ e2 - m2 * 10 ^ e1, e1 + e2)

/-- Model of Python's `str(x)` as used in the dashboard-URL f-string:
identity on strings, `None`/`True`/`False` for the singletons, decimal
rendering for numbers; the `repr` of containers is approximated by
their JSON text. -/
def pyStr (v : JVal) : String :=
  match v with
  | .null => "None"
  | .bool true => "True"
  | .bool false => "False"
  | .num m e => String.mk (encNum m e)
  | .str s => s
  | .arr l => String.mk (encV (.arr l))
  | .obj l => String.mk (encV (.obj l))

/-- Numeric content of a value under Python `==` (booleans compare
equal to the numbers `1`/`0`). -/
def pyNumVal : JVal → Option (Int × Nat)
  | .num m e => some (m, e)
  | .bool b => some (if b then 1 else 0, 0)
  | _ => none

/-- Model of Python's `==` on the values the seen-set can hold:
numbers and booleans compare by numeric value, `None` and strings by
identity of kind and content; mixed kinds are unequal.  (Containers
compare structurally; the pipeline never compares them because they
are rejected as unhashable before any comparison.) -/
def pyEq (a b : JVal) : Bool :=
  match pyNumVal a, pyNumVal b with
  | some (m1, e1), some (m2, e2) => m1 * 10 ^ e2 == m2 * 10 ^ e1
  | _, _ =>
    match a, b with
    | .null, .null => true
    | .str s, .str t => s == t
    | _, _ => beqV a b

/-- Python hashability of a JSON-representable value: lists and dicts
are unhashable. -/
def hashable : JVal → Bool
  | .arr _ => false
  | .obj _ => false
  | _ => true

/-- Character of the standard base64 alphabet at index `n < 64`. -/
def b64Char (n : Nat) : Char :=
  if n < 26 then Char.ofNat (65 + n)
  else if n < 52 then Char.ofNat (71 + n)
  else if n < 62 then Char.ofNat (n - 4)
  else if n = 62 then '+'
  else '/'

/-- Index of a character in the standard base64 alphabet. -/
def b64CharInv (c : Char) : Option Nat :=
  let n := c.toNat
  if 65 ≤ n ∧ n ≤ 90 then some (n - 65)
  else if 97 ≤ n ∧ n ≤ 122 then some (n - 71)
  else if 48 ≤ n ∧ n ≤ 57 then some (n + 4)
  else if n = 43 then some 62
  else if n = 47 then some 63
  else none

/-- Model of `base64.b64encode`: bytes to text, three bytes per four
characters, padded with `=`. -/
def b64encode : List Nat → List Char
  | [] => []
  | [a] => [b64Char (a / 4), b64Char (a % 4 * 16), '=', '=']
  | [a, b] => [b64Char (a / 4), b64Char (a % 4 * 16 + b / 16), b64Char (b % 16 * 4), '=']
  | a :: b :: c :: t =>
    b64Char (a / 4) :: b64Char (a % 4 * 16 + b / 16) ::
    b64Char (b % 16 * 4 + c / 64) :: b64Char (c % 64) :: b64encode t

/-- Tail of the discarding base64 scan after a first `=` has closed a
group holding the two sextets `a` and `b`: further garbage is still
skipped, a second `=` emits the group's single byte and ends the scan
(everything after it is ignored, as `binascii` does), and an alphabet
character in this position is a padding error. -/
def b64padTail (a b : Nat) : List Char → Option (List Nat)
  | [] => none
  | ch :: r =>
    if ch = '=' then some [a * 4 + b / 16]
    else
      match b64CharInv ch with
      | some _ => none
      | none => b64padTail a b r

/-- Core scan of `base64.b64decode` in the discarding mode the script
calls (default `validate=False`): characters outside the alphabet are
skipped; `=` is likewise skipped while the open group holds fewer than
two sextets; a group of two sextets closed by `==`, or of three closed
by `=`, emits its one or two bytes and ends the scan; a trailing
unpadded group of one, two or three sextets is an error.  The second
argument accumulates the sextets of the open group. -/
def b64scan : List Char → List Nat → Option (List Nat)
  | [], [] => some []
  | [], _ :: _ => none
  | ch :: r, quad =>
    if ch = '=' then
      match quad with
      | [a, b] => b64padTail a b r
      | [a, b, c] => some [a * 4 + b / 16, b % 16 * 16 + c / 4]
      | _ => b64scan r quad
    else
      match b64CharInv ch with
      | none => b64scan r quad
      | some v =>
        match quad with
        | [a, b, c] =>
          (b64scan r []).map (fun t =>
            (a * 4 + b / 16) :: (b % 16 * 16 + c / 4) :: (c % 4 * 64 + v) :: t)
        | _ => b64scan r (quad ++ [v])

/-- Model of `base64.b64decode` as the script calls it (a `str`
argument, default `validate=False`): the argument is first encoded as
ASCII (a non-ASCII character raises), then scanned in discarding
mode starting from an empty group. -/
def b64decodeChars (s : List Char) : Option (List Nat) :=
  if s.all (fun c => decide (c.toNat < 128)) then b64scan s [] else none

/-- Model of `gzip.compress`: the gzip container is modelled as the
two magic header bytes `0x1f 0x8b` followed by the payload, the DEFLATE
body coding itself being modelled as the identity. -/
def gzipCompress (bs : List Nat) : List Nat := 31 :: 139 :: bs

/-- Model of `gzip.decompress`: succeeds exactly on streams carrying
the gzip magic header, returning the body. -/
def gzipDecompress : List Nat → Option (List Nat)
  | 31 :: 139 :: body => some body
  | _ => none

/-- Model of `str.encode("utf-8")` on its ASCII fragment. -/
def strToBytes (s : String) : List Nat := s.data.map Char.toNat

/-- Model of `bytes.decode("utf-8")` on its ASCII fragment: succeeds
iff every byte is ASCII. -/
def bytesToStr (bs : List Nat) : Option String :=
  if bs.all (fun b => decide (b < 128)) then some (String.mk (bs.map Char.ofNat)) else none

/-- First decoding strategy of `decode_payload`: base64-decode, gzip-
decompress, decode UTF-8, parse JSON; `none` models any exception in
the chain. -/
def decodeStrategy1 (s : String) : Option JVal :=
  (b64decodeChars s.data).bind (fun bytes =>
    (gzipDecompress bytes).bind (fun body =>
      (bytesToStr body).bind (fun t => jsonParse t)))

/-- Translation of `decode_payload` (script lines 51-73): dicts pass
through unchanged; strings go through the base64+gzip+JSON strategy and
then the plain-JSON fallback, with the empty dict as last resort; any
other input yields the empty dict. -/
def decode_payload : JVal → JVal
  | .obj l => .obj l
  | .str s =>
    (match decodeStrategy1 s with
     | some d => d
     | none =>
       match jsonParse s with
       | some d => d
       | none => .obj [])
  | _ => .obj []

/-- Translation of script lines 98-101: the `messages`-to-last-
timestamp step.  Falsy `messages` leaves the timestamp `None`; truthy
non-list values raise (`len` fails on numbers, `[-1]` fails on dicts,
`.get` fails on the character sliced from a string or on a non-dict
last element). -/
def lastTsStep (messages : JVal) : Except String JVal :=
  if truthy messages then
    match messages with
    | .arr l =>
      (match l.getLast? with
       | some (.obj lo) => .ok (fieldsGetD lo "secondsFromStart" .null)
       | some _ => .error "AttributeError"
       | none => .ok .null)
    | .str _ => .error "AttributeError"
    | .obj _ => .error "KeyError"
    | _ => .error "TypeError"
  else .ok .null

/-- Translation of script lines 108-114: the difference is computed
only when both operands are non-`None`, and a failed float coercion is
swallowed, leaving it `None`. -/
def computeDiff (duration ts : JVal) : JVal :=
  if duration = .null ∨ ts = .null then .null
  else
    match pyFloat duration, pyFloat ts with
    | some a, some b => .num (decSub a b).1 (decSub a b).2
    | _, _ => .null

/-- Script line 33. -/
def DASHBOARD_BASE_URL : String := "https://hellocounsel-dashboard.vercel.app/calls"

/-- Script line 34. -/
def DASHBOARD_PARAMS : String :=
  "f=0&e=production&s=N4IgJgtiBcIJ4FMDOAXBAnMBDOIA0ISYMIATAAykBsAtOQIw2kAs%2BICxsF1djAzPRABfIA"

/-- The f-string of script line 117. -/
def dashboardURL (call_id : JVal) : String :=
  DASHBOARD_BASE_URL ++ "?" ++ DASHBOARD_PARAMS ++ "&c=" ++ pyStr call_id

/-- The dict literal built at script lines 119-128, given the `call`
and `message` mappings and the already-computed last timestamp. -/
def extractRecord (cl ml : List (String × JVal)) (ts : JVal) : JVal :=
  .obj [
    ("callID", (fieldsGet cl "id").getD .null),
    ("dashboardURL", .str (dashboardURL ((fieldsGet cl "id").getD .null))),
    ("vapiCallDuration", fieldsGetD ml "durationSeconds" .null),
    ("lastMessageTimeStamp", ts),
    ("difference", computeDiff (fieldsGetD ml "durationSeconds" .null) ts),
    ("startedAt", fieldsGetD ml "startedAt" .null),
    ("endedAt", fieldsGetD ml "endedAt" .null),
    ("endedReason", fieldsGetD ml "endedReason" .null)]

/-- Translation of `extract_call_data` (script lines 76-128).  `.ok
none` is the "no record" signal (`return None`); `.error` models an
uncaught exception (every `.get` on a non-dict raises
`AttributeError`). -/
def extract_call_data (payload : JVal) : Except String (Option JVal) :=
  match payload with
  | .obj pl =>
    (match fieldsGetD pl "message" (.obj []) with
     | .obj ml =>
       (match fieldsGetD ml "call" (.obj []) with
        | .obj cl =>
          if truthy ((fieldsGet cl "id").getD .null) then
            (match fieldsGetD ml "artifact" (.obj []) with
             | .obj al =>
               (match lastTsStep (fieldsGetD al "messages" (.arr [])) with
                | .error e => .error e
                | .ok ts => .ok (some (extractRecord cl ml ts)))
             | _ => .error "AttributeError")
          else .ok none
        | _ => .error "AttributeError")
     | _ => .error "AttributeError")
  | _ => .error "AttributeError"

/-- Dict subscript `v[k]`: `KeyError` on a missing key, `TypeError` on
a non-dict. -/
def pyIndex (v : JVal) (k : String) : Except String JVal :=
  match v with
  | .obj l =>
    (match fieldsGet l k with
     | some x => .ok x
     | none => .error "KeyError")
  | _ => .error "TypeError"

/-- Membership test against the seen-set: Python hashes the candidate
first, so an unhashable value raises `TypeError`; equality is Python
`==`. -/
def setMem (seen : List JVal) (x : JVal) : Except String Bool :=
  if hashable x then .ok (seen.any (fun y => pyEq x y)) else .error "TypeError"

/-- Loop body of `process_webhooks` (script lines 180-189), with the
seen-set made explicit.  Records whose `callID` was already seen are
skipped; new ones are appended in input order. -/
def processAux : List JVal → List JVal → Except String (List JVal)
  | [], _ => .ok []
  | w :: ws, seen =>
    match w with
    | .obj wl =>
      (match extract_call_data (decode_payload (fieldsGetD wl "payload" (.obj []))) with
       | .error e => .error e
       | .ok none => processAux ws seen
       | .ok (some cd) =>
         if truthy cd then
           match pyIndex cd "callID" with
           | .error e => .error e
           | .ok cid =>
             match setMem seen cid with
             | .error e => .error e
             | .ok true => processAux ws seen
             | .ok false =>
               (match processAux ws (cid :: seen) with
                | .error e => .error e
                | .ok rest => .ok (cd :: rest))
         else processAux ws seen)
    | _ => .error "AttributeError"

/-- Translation of `process_webhooks` (script lines 169-192). -/
def process_webhooks (webhooks : List JVal) : Except String (List JVal) :=
  processAux webhooks []

/-- Total navigation step: the value of key `k` if `v` is a mapping
containing it, absent otherwise.  Used to state spec-side properties. -/
def pathGet (v : JVal) (k : String) : Option JVal :=
  match v with
  | .obj l => fieldsGet l k
  | _ => none

/-- The `callID` field of a record, as a total function. -/
def getCallID (r : JVal) : JVal := (pathGet r "callID").getD .null

/-- Spec-side total reading of `message.call.id`: absent (`None`) as
soon as a navigation step is missing or lands on a non-mapping. -/
def callIdSpec (p : JVal) : JVal :=
  (((pathGet p "message").bind (fun m => pathGet m "call")).bind
    (fun c => pathGet c "id")).getD .null

/-- Timestamp of the last element of a `messages` value: absent unless
the value is a sequence whose last element is a mapping carrying the
key. -/
def lastOfMessages (msv : JVal) : JVal :=
  match msv with
  | .arr l =>
    (match l.getLast? with
     | some (.obj lo) => fieldsGetD lo "secondsFromStart" .null
     | _ => .null)
  | _ => .null

/-- Spec-side total reading of the timestamp of the last element of
`message.artifact.messages`: absent unless the path leads to a
sequence whose last element is a mapping. -/
def lastTsSpec (p : JVal) : JVal :=
  lastOfMessages ((((pathGet p "message").bind (fun m => pathGet m "artifact")).bind
    (fun a => pathGet a "messages")).getD .null)

/-- Reference aggregation: keep the first record for each `callID`
(Python `==` on identifiers), preserving input order. -/
def firstOccurDedup : List JVal → List JVal → List JVal
  | [], _ => []
  | r :: t, seen =>
    let cid := getCallID r
    if seen.any (fun y => pyEq cid y) then firstOccurDedup t seen
    else r :: firstOccurDedup t (cid :: seen)

/-- Decode and extract every webhook in input order without any
deduplication (the truthiness filter of the loop included). -/
def extractAll : List JVal → Except String (List JVal)
  | [] => .ok []
  | w :: ws =>
    match w with
    | .obj wl =>
      (match extract_call_data (decode_payload (fieldsGetD wl "payload" (.obj []))) with
       | .error e => .error e
       | .ok none => extractAll ws
       | .ok (some cd) =>
         if truthy cd then
           match extractAll ws with
           | .error e => .error e
           | .ok rest => .ok (cd :: rest)
         else extractAll ws)
    | _ => .error "AttributeError"

/-- Shape of a `messages` value that the last-timestamp step handles
without raising: a sequence whose last element (if any) is a mapping,
or any falsy value. -/
def messagesShapeOk (msv : JVal) : Bool :=
  match msv with
  | .arr l =>
    (match l.getLast? with
     | some (.obj _) => true
     | some _ => false
     | none => true)
  | m => !truthy m

/-- Decoded payloads of this shape are processed without raising: the
document and each nesting reached (`message`, `call`, `artifact`) is a
mapping wherever it is present, the `messages` value satisfies
`messagesShapeOk`, and a truthy `callID` is hashable. -/
def benignPayload (p : JVal) : Bool :=
  match p with
  | .obj pl =>
    (match fieldsGetD pl "message" (.obj []) with
     | .obj ml =>
       (match fieldsGetD ml "call" (.obj []) with
        | .obj cl =>
          let cid := (fieldsGet cl "id").getD .null
          (!truthy cid) || (hashable cid &&
            (match fieldsGetD ml "artifact" (.obj []) with
             | .obj al => messagesShapeOk (fieldsGetD al "messages" (.arr []))
             | _ => false))
        | _ => false)
     | _ => false)
  | _ => false

/-- A benign raw stored record: a mapping whose decoded payload is
benign. -/
def benignWebhook (w : JVal) : Bool :=
  match w with
  | .obj wl => benignPayload (decode_payload (fieldsGetD wl "payload" (.obj [])))
  | _ => false

theorem digitChar_isDig : ∀ d, d < 10 → isDig (digitChar d) = true := by decide

theorem digitChar_toNat : ∀ d, d < 10 → (digitChar d).toNat = 48 + d := by decide

theorem isDig_toNat {c : Char} (h : isDig c = true) : 48 ≤ c.toNat ∧ c.toNat ≤ 57 := by
  simp only [isDig, Bool.and_eq_true, decide_eq_true_eq] at h
  exact h

theorem isDig_ne_of_toNat {c : Char} (h : isDig c = true) {d : Char}
    (hd : isDig d = false ∨ 57 < d.toNat ∨ d.toNat < 48) : c ≠ d := by
  intro he
  subst he
  rcases isDig_toNat h with ⟨h1, h2⟩
  rcases hd with h3 | h3 | h3
  · rw [h] at h3; cases h3
  · omega
  · omega

theorem digitsToNat_from (a : Nat) (ds : List Char) :
    ds.foldl (fun x c => x * 10 + (c.toNat - 48)) a
      = a * 10 ^ ds.length + digitsToNat ds := by
  induction ds generalizing a with
  | nil => simp [digitsToNat]
  | cons c t ih =>
    simp only [List.foldl_cons, digitsToNat] at *
    rw [ih (a * 10 + (c.toNat - 48)), ih (0 * 10 + (c.toNat - 48))]
    simp only [List.length_cons, pow_succ]
    ring

theorem digitsToNat_append (xs ys : List Char) :
    digitsToNat (xs ++ ys) = digitsToNat xs * 10 ^ ys.length + digitsToNat ys := by
  simp only [digitsToNat, List.foldl_append]
  exact digitsToNat_from _ ys

theorem digitsToNat_replicate_zero (k : Nat) (ds : List Char) :
    digitsToNat (List.replicate k '0' ++ ds) = digitsToNat ds := by
  induction k with
  | zero => simp
  | succ n ih =>
    have : List.replicate (n + 1) '0' ++ ds = '0' :: (List.replicate n '0' ++ ds) := by
      simp [List.replicate_succ]
    rw [this]
    simp only [digitsToNat, List.foldl_cons] at *
    convert ih using 2

theorem encNatAux_spec : ∀ fuel n acc, n < 10 ^ (fuel + 1) →
    ∃ ds, encNatAux (fuel + 1) n acc = ds ++ acc ∧ ds ≠ [] ∧
      (∀ c ∈ ds, isDig c = true) ∧ digitsToNat ds = n ∧
      (∀ j, 1 ≤ j → n < 10 ^ j → ds.length ≤ j) := by
  intro fuel
  induction fuel with
  | zero =>
    intro n acc h
    have hn : n < 10 := by simpa using h
    refine ⟨[digitChar (n % 10)], ?_, by simp, ?_, ?_, ?_⟩
    · simp [encNatAux, hn]
    · intro c hc
      simp only [List.mem_singleton] at hc
      subst hc
      exact digitChar_isDig _ (Nat.mod_lt _ (by omega))
    · simp only [digitsToNat, List.foldl_cons, List.foldl_nil]
      rw [digitChar_toNat _ (Nat.mod_lt _ (by omega))]
      omega
    · intro j hj _
      simp only [List.length_singleton]
      omega
  | succ f ih =>
    intro n acc h
    by_cases hn : n < 10
    · refine ⟨[digitChar (n % 10)], ?_, by simp, ?_, ?_, ?_⟩
      · simp [encNatAux, hn]
      · intro c hc
        simp only [List.mem_singleton] at hc
        subst hc
        exact digitChar_isDig _ (Nat.mod_lt _ (by omega))
      · simp only [digitsToNat, List.foldl_cons, List.foldl_nil]
        rw [digitChar_toNat _ (Nat.mod_lt _ (by omega))]
        omega
      · intro j hj _
        simp only [List.length_singleton]
        omega
    · have hdiv : n / 10 < 10 ^ (f + 1) := by
        rw [Nat.div_lt_iff_lt_mul (by omega)]
        calc n < 10 ^ (f + 1 + 1) := h
        _ = 10 ^ (f + 1) * 10 := by ring
      obtain ⟨ds, h1, h2, h3, h4, h5⟩ := ih (n / 10) (digitChar (n % 10) :: acc) hdiv
      refine ⟨ds ++ [digitChar (n % 10)], ?_, by simp, ?_, ?_, ?_⟩
      · rw [show encNatAux (f + 1 + 1) n acc
              = encNatAux (f + 1) (n / 10) (digitChar (n % 10) :: acc) by
            simp [encNatAux, hn]]
        rw [h1, List.append_assoc]
        rfl
      · intro c hc
        rcases List.mem_append.mp hc with hc | hc
        · exact h3 c hc
        · simp only [List.mem_singleton] at hc
          subst hc
          exact digitChar_isDig _ (Nat.mod_lt _ (by omega))
      · rw [digitsToNat_append, h4]
        simp only [List.length_singleton, pow_one, digitsToNat, List.foldl_cons,
          List.foldl_nil]
        rw [digitChar_toNat _ (Nat.mod_lt _ (by omega))]
        omega
      · intro j hj hnj
        have hj2 : 2 ≤ j := by
          rcases Nat.lt_or_ge j 2 with hlt | hge
          · have hj1 : j = 1 := by omega
            subst hj1
            simp only [pow_one] at hnj
            omega
          · exact hge
        have : n / 10 < 10 ^ (j - 1) := by
          rw [Nat.div_lt_iff_lt_mul (by omega)]
          calc n < 10 ^ j := hnj
          _ = 10 ^ (j - 1) * 10 := by
              rw [← pow_succ]
              congr 1
              omega
        have := h5 (j - 1) (by omega) this
        simp only [List.length_append, List.length_singleton]
        omega

theorem encNat_spec (n : Nat) : encNat n ≠ [] ∧
    (∀ c ∈ encNat n, isDig c = true) ∧ digitsToNat (encNat n) = n ∧
    (∀ j, 1 ≤ j → n < 10 ^ j → (encNat n).length ≤ j) := by
  have hlt : n < 10 ^ (n + 1) := by
    calc n < 10 ^ n := Nat.lt_pow_self (by omega) n
    _ ≤ 10 ^ (n + 1) := Nat.pow_le_pow_right (by omega) (by omega)
  obtain ⟨ds, h1, h2, h3, h4, h5⟩ := encNatAux_spec n n [] hlt
  have : encNat n = ds := by
    rw [encNat, h1, List.append_nil]
  rw [this]
  exact ⟨h2, h3, h4, h5⟩

theorem takeWhile_append_all (p : Char → Bool) (xs ys : List Char)
    (h1 : ∀ c ∈ xs, p c = true)
    (h2 : match ys with | [] => True | c :: _ => p c = false) :
    (xs ++ ys).takeWhile p = xs := by
  induction xs with
  | nil =>
    cases ys with
    | nil => rfl
    | cons c t =>
      simp only at h2
      simp [List.takeWhile_cons, h2]
  | cons x xt ih =>
    have hx := h1 x (by simp)
    have ih2 := ih (fun c hc => h1 c (by simp [hc]))
    simp [List.takeWhile_cons, hx, ih2]

/-- Characters after which a number literal correctly stops: end of
input, or a head that is neither a digit nor a decimal point. -/
def numDelim (rest : List Char) : Prop :=
  match rest with
  | [] => True
  | c :: _ => isDig c = false ∧ c ≠ '.'

theorem padZ_length (e : Nat) (ds : List Char) (h : ds.length ≤ e) :
    (padZ e ds).length = e := by
  simp only [padZ, List.length_append, List.length_replicate]
  omega

theorem padZ_all_dig (e : Nat) (ds : List Char) (h : ∀ c ∈ ds, isDig c = true) :
    ∀ c ∈ padZ e ds, isDig c = true := by
  intro c hc
  rcases List.mem_append.mp hc with hc | hc
  · rw [List.eq_of_mem_replicate hc]; decide
  · exact h c hc

theorem parseNumCore_encNat (neg : Bool) (a : Nat) (rest : List Char)
    (hrest : numDelim rest) :
    parseNumCore neg (encNat a ++ rest)
      = some (.num (if neg then -(a : Int) else (a : Int)) 0, rest) := by
  obtain ⟨hne, hdig, hval, _⟩ := encNat_spec a
  have htake : (encNat a ++ rest).takeWhile isDig = encNat a := by
    refine takeWhile_append_all isDig _ rest hdig ?_
    cases rest with
    | nil => trivial
    | cons c t => exact hrest.1
  simp only [parseNumCore, htake, List.drop_left, if_neg hne]
  cases rest with
  | nil => simp [hval]
  | cons c t =>
    have hc : ¬(c = '.') := hrest.2
    simp [hc, hval]

theorem parseNumCore_encFrac (neg : Bool) (a : Nat) (e : Nat) (he : 1 ≤ e)
    (rest : List Char) (hrest : numDelim rest) :
    parseNumCore neg ((encNat (a / 10 ^ e) ++ '.' :: padZ e (encNat (a % 10 ^ e))) ++ rest)
      = some (.num (if neg then -(a : Int) else (a : Int)) e, rest) := by
  obtain ⟨hne, hdig, hval, hlen⟩ := encNat_spec (a / 10 ^ e)
  obtain ⟨fne, fdig, fval, flen⟩ := encNat_spec (a % 10 ^ e)
  have hfra : (encNat (a % 10 ^ e)).length ≤ e :=
    flen e he (Nat.mod_lt _ (by positivity))
  have hpadlen : (padZ e (encNat (a % 10 ^ e))).length = e := padZ_length _ _ hfra
  rw [List.append_assoc, List.cons_append]
  have htake : (encNat (a / 10 ^ e) ++ '.' :: (padZ e (encNat (a % 10 ^ e)) ++ rest)).takeWhile isDig
      = encNat (a / 10 ^ e) := by
    refine takeWhile_append_all isDig _ _ hdig ?_
    simp only
    decide
  have ftake : (padZ e (encNat (a % 10 ^ e)) ++ rest).takeWhile isDig
      = padZ e (encNat (a % 10 ^ e)) := by
    refine takeWhile_append_all isDig _ rest (padZ_all_dig _ _ fdig) ?_
    cases rest with
    | nil => trivial
    | cons c t => exact hrest.1
  have hpadne : padZ e (encNat (a % 10 ^ e)) ≠ [] := by
    intro h
    rw [h] at hpadlen
    simp at hpadlen
    omega
  have hfracval : digitsToNat (padZ e (encNat (a % 10 ^ e))) = a % 10 ^ e := by
    simp only [padZ]
    rw [digitsToNat_replicate_zero, fval]
  have hdall : digitsToNat (encNat (a / 10 ^ e) ++ padZ e (encNat (a % 10 ^ e))) = a := by
    rw [digitsToNat_append, hpadlen, hval, hfracval]
    have h10 := Nat.div_add_mod a (10 ^ e)
    rw [Nat.mul_comm (10 ^ e) (a / 10 ^ e)] at h10
    exact h10
  simp only [parseNumCore, htake, List.drop_left, if_neg hne, ftake, if_neg hpadne,
    hdall, hpadlen]
  have hdrop : ∀ L : List Char, L.length = e → List.drop e (L ++ rest) = rest := by
    intro L hL
    rw [← hL]
    exact List.drop_left _ _
  rw [if_pos trivial, hdrop _ hpadlen]

theorem encNum_zero (m : Int) :
    encNum m 0 = (if m < 0 then ['-'] else []) ++ encNat m.natAbs := by
  simp [encNum]

theorem encNum_frac (m : Int) (e : Nat) (he : ¬(e = 0)) :
    encNum m e = (if m < 0 then ['-'] else []) ++
      (encNat (m.natAbs / 10 ^ e) ++ '.' :: padZ e (encNat (m.natAbs % 10 ^ e))) := by
  simp [encNum, he, List.append_assoc]

theorem parseNum_encNum (m : Int) (e : Nat) (rest : List Char) (hrest : numDelim rest) :
    parseNum (encNum m e ++ rest) = some (.num m e, rest) := by
  rcases Nat.eq_zero_or_pos e with he | he
  · subst he
    rw [encNum_zero]
    by_cases hm : m < 0
    · rw [if_pos hm, List.append_assoc, List.singleton_append]
      show parseNum ('-' :: (encNat m.natAbs ++ rest)) = _
      simp only [parseNum, if_pos rfl]
      rw [parseNumCore_encNat true m.natAbs rest hrest]
      have habs : -(↑m.natAbs : Int) = m := by omega
      rw [if_pos rfl, habs]
      exact if_pos trivial
    · rw [if_neg hm, List.nil_append]
      obtain ⟨hne, hdig, _, _⟩ := encNat_spec m.natAbs
      obtain ⟨d, t, hdt⟩ := List.exists_cons_of_ne_nil hne
      have hd : isDig d = true := hdig d (by rw [hdt]; simp)
      have hdm : ¬(d = '-') := isDig_ne_of_toNat hd (by right; right; decide)
      rw [hdt, List.cons_append]
      simp only [parseNum, if_neg hdm]
      rw [← List.cons_append, ← hdt,
        parseNumCore_encNat false m.natAbs rest hrest]
      have habs : (↑m.natAbs : Int) = m := by omega
      rw [if_neg (by decide), habs]
  · have he0 : ¬(e = 0) := by omega
    rw [encNum_frac m e he0]
    by_cases hm : m < 0
    · rw [if_pos hm, List.append_assoc, List.singleton_append]
      show parseNum ('-' :: ((encNat (m.natAbs / 10 ^ e) ++
        '.' :: padZ e (encNat (m.natAbs % 10 ^ e))) ++ rest)) = _
      simp only [parseNum, if_pos rfl]
      rw [parseNumCore_encFrac true m.natAbs e he rest hrest]
      have habs : -(↑m.natAbs : Int) = m := by omega
      rw [if_pos rfl, habs]
      exact if_pos trivial
    · rw [if_neg hm, List.nil_append]
      obtain ⟨hne, hdig, _, _⟩ := encNat_spec (m.natAbs / 10 ^ e)
      obtain ⟨d, t, hdt⟩ := List.exists_cons_of_ne_nil hne
      have hd : isDig d = true := hdig d (by rw [hdt]; simp)
      have hdm : ¬(d = '-') := isDig_ne_of_toNat hd (by right; right; decide)
      rw [List.append_assoc, hdt, List.cons_append, List.cons_append]
      simp only [parseNum, if_neg hdm]
      rw [← List.cons_append, ← List.cons_append, ← hdt, ← List.append_assoc,
        parseNumCore_encFrac false m.natAbs e he rest hrest]
      have habs : (↑m.natAbs : Int) = m := by omega
      rw [if_neg (by decide), habs]

theorem plainChar_spec {c : Char} (h : plainChar c = true) :
    32 ≤ c.toNat ∧ c.toNat ≤ 126 ∧ ¬(c = '"') ∧ ¬(c = '\\') := by
  simp only [plainChar, Bool.and_eq_true, decide_eq_true_eq, Bool.not_eq_true',
    decide_eq_false_iff_not] at h
  tauto

theorem parseStrBody_enc (s : String) (rest : List Char)
    (h : ∀ c ∈ s.data, plainChar c = true) :
    parseStrBody (s.data ++ '"' :: rest) = some (s, rest) := by
  have htake : (s.data ++ '"' :: rest).takeWhile (fun c => !(c = '"')) = s.data := by
    refine takeWhile_append_all _ _ _ ?_ ?_
    · intro c hc
      have hq := (plainChar_spec (h c hc)).2.2.1
      simp [hq]
    · simp only
      decide
  simp only [parseStrBody, htake, List.drop_left]

theorem parseKey_enc (k : String) (rest : List Char)
    (h : ∀ c ∈ k.data, plainChar c = true) :
    parseKey ('"' :: (k.data ++ '"' :: ':' :: rest)) = some (k, rest) := by
  simp only [parseKey]
  rw [show (k.data ++ '"' :: ':' :: rest) = (k.data ++ '"' :: (':' :: rest)) from rfl]
  rw [parseStrBody_enc k (':' :: rest) h]
  rfl

theorem encNum_head (m : Int) (e : Nat) :
    ∃ c t, encNum m e = c :: t ∧ (c = '-' ∨ isDig c = true) := by
  rcases Nat.eq_zero_or_pos e with he | he
  · subst he
    rw [encNum_zero]
    by_cases hm : m < 0
    · rw [if_pos hm]
      exact ⟨'-', encNat m.natAbs, rfl, Or.inl rfl⟩
    · rw [if_neg hm, List.nil_append]
      obtain ⟨hne, hdig, _, _⟩ := encNat_spec m.natAbs
      obtain ⟨d, t, hdt⟩ := List.exists_cons_of_ne_nil hne
      exact ⟨d, t, hdt, Or.inr (hdig d (by rw [hdt]; simp))⟩
  · have he0 : ¬(e = 0) := by omega
    rw [encNum_frac m e he0]
    by_cases hm : m < 0
    · rw [if_pos hm]
      exact ⟨'-', _, rfl, Or.inl rfl⟩
    · rw [if_neg hm, List.nil_append]
      obtain ⟨hne, hdig, _, _⟩ := encNat_spec (m.natAbs / 10 ^ e)
      obtain ⟨d, t, hdt⟩ := List.exists_cons_of_ne_nil hne
      refine ⟨d, t ++ '.' :: padZ e (encNat (m.natAbs % 10 ^ e)), ?_,
        Or.inr (hdig d (by rw [hdt]; simp))⟩
      rw [hdt, List.cons_append]

theorem encV_head (v : JVal) : ∃ c t, encV v = c :: t ∧
    (c = 'n' ∨ c = 't' ∨ c = 'f' ∨ c = '"' ∨ c = '[' ∨ c = '{' ∨
      c = '-' ∨ isDig c = true) := by
  cases v with
  | null => exact ⟨'n', _, rfl, by tauto⟩
  | bool b =>
    cases b
    · exact ⟨'f', _, rfl, by tauto⟩
    · exact ⟨'t', _, rfl, by tauto⟩
  | num m e =>
    obtain ⟨c, t, h1, h2⟩ := encNum_head m e
    exact ⟨c, t, h1, by tauto⟩
  | str s => exact ⟨'"', _, rfl, by tauto⟩
  | arr l => exact ⟨'[', _, rfl, by tauto⟩
  | obj l => exact ⟨'{', _, rfl, by tauto⟩

theorem startChar_facts {c : Char}
    (h : c = 'n' ∨ c = 't' ∨ c = 'f' ∨ c = '"' ∨ c = '[' ∨ c = '{' ∨
      c = '-' ∨ isDig c = true) : ¬(c = ']') ∧ ¬(c = '}') := by
  rcases h with h | h | h | h | h | h | h | h
  · subst h; exact ⟨by decide, by decide⟩
  · subst h; exact ⟨by decide, by decide⟩
  · subst h; exact ⟨by decide, by decide⟩
  · subst h; exact ⟨by decide, by decide⟩
  · subst h; exact ⟨by decide, by decide⟩
  · subst h; exact ⟨by decide, by decide⟩
  · subst h; exact ⟨by decide, by decide⟩
  · exact ⟨isDig_ne_of_toNat h (Or.inr (Or.inl (by decide))),
      isDig_ne_of_toNat h (Or.inr (Or.inl (by decide)))⟩

theorem numHead_facts {c : Char} (h : c = '-' ∨ isDig c = true) :
    ¬(c = 'n') ∧ ¬(c = 't') ∧ ¬(c = 'f') ∧ ¬(c = '"') ∧ ¬(c = '[') ∧ ¬(c = '{') := by
  rcases h with h | h
  · subst h
    exact ⟨by decide, by decide, by decide, by decide, by decide, by decide⟩
  · exact ⟨isDig_ne_of_toNat h (Or.inr (Or.inl (by decide))),
      isDig_ne_of_toNat h (Or.inr (Or.inl (by decide))),
      isDig_ne_of_toNat h (Or.inr (Or.inl (by decide))),
      isDig_ne_of_toNat h (Or.inr (Or.inr (by decide))),
      isDig_ne_of_toNat h (Or.inr (Or.inl (by decide))),
      isDig_ne_of_toNat h (Or.inr (Or.inl (by decide)))⟩

theorem optBind_some {α β : Type} (a : α) (f : α → Option β) :
    (some a).bind f = f a := rfl

theorem parseV_nullEq (n : Nat) (rest : List Char) :
    parseV (n + 1) ('n' :: 'u' :: 'l' :: 'l' :: rest) = some (.null, rest) := rfl

theorem parseV_trueEq (n : Nat) (rest : List Char) :
    parseV (n + 1) ('t' :: 'r' :: 'u' :: 'e' :: rest) = some (.bool true, rest) := rfl

theorem parseV_falseEq (n : Nat) (rest : List Char) :
    parseV (n + 1) ('f' :: 'a' :: 'l' :: 's' :: 'e' :: rest) = some (.bool false, rest) := rfl

theorem parseV_strEq (n : Nat) (r : List Char) :
    parseV (n + 1) ('"' :: r) = (parseStrBody r).map (fun p => (.str p.1, p.2)) := rfl

theorem parseV_arrNil (n : Nat) (rest : List Char) :
    parseV (n + 1) ('[' :: ']' :: rest) = some (.arr [], rest) := rfl

theorem parseV_objNil (n : Nat) (rest : List Char) :
    parseV (n + 1) ('{' :: '}' :: rest) = some (.obj [], rest) := rfl

theorem parseV_arrCons (n : Nat) (c2 : Char) (r2 : List Char) (hne : ¬(c2 = ']')) :
    parseV (n + 1) ('[' :: c2 :: r2)
      = (parseV n (c2 :: r2)).bind (fun p =>
          (parseArrTail n p.2).bind (fun q => some (.arr (p.1 :: q.1), q.2))) := by
  simp only [parseV]
  rw [if_neg (by decide), if_neg (by decide), if_neg (by decide), if_neg (by decide),
    if_pos trivial, if_neg hne]

theorem parseV_objCons (n : Nat) (c2 : Char) (r2 : List Char) (hne : ¬(c2 = '}')) :
    parseV (n + 1) ('{' :: c2 :: r2)
      = (parseKey (c2 :: r2)).bind (fun pk =>
          (parseV n pk.2).bind (fun pv =>
            (parseObjTail n pv.2).bind (fun q =>
              some (.obj ((pk.1, pv.1) :: q.1), q.2)))) := by
  simp only [parseV]
  rw [if_neg (by decide), if_neg (by decide), if_neg (by decide), if_neg (by decide),
    if_neg (by decide), if_pos trivial, if_neg hne]

theorem parseArrTail_close (n : Nat) (rest : List Char) :
    parseArrTail (n + 1) (']' :: rest) = some ([], rest) := rfl

theorem parseArrTail_comma (n : Nat) (r : List Char) :
    parseArrTail (n + 1) (',' :: r)
      = (parseV n r).bind (fun p =>
          (parseArrTail n p.2).bind (fun q => some (p.1 :: q.1, q.2))) := by
  simp only [parseArrTail]
  rw [if_neg (by decide), if_pos trivial]

theorem parseObjTail_close (n : Nat) (rest : List Char) :
    parseObjTail (n + 1) ('}' :: rest) = some ([], rest) := rfl

theorem parseObjTail_comma (n : Nat) (r : List Char) :
    parseObjTail (n + 1) (',' :: r)
      = (parseKey r).bind (fun pk =>
          (parseV n pk.2).bind (fun pv =>
            (parseObjTail n pv.2).bind (fun q =>
              some ((pk.1, pv.1) :: q.1, q.2)))) := by
  simp only [parseObjTail]
  rw [if_neg (by decide), if_pos trivial]

/-- Remainders the element reader may legitimately be left with inside
a document: end of input or a separator/closer. -/
def vDelim (rest : List Char) : Prop :=
  match rest with
  | [] => True
  | c :: _ => c = ',' ∨ c = ']' ∨ c = '}'

theorem numDelim_of_vDelim {rest : List Char} (h : vDelim rest) : numDelim rest := by
  cases rest with
  | nil => trivial
  | cons c t =>
    rcases h with h | h | h <;> subst h <;> exact ⟨by decide, by decide⟩

theorem vDelim_arrTail (l : List JVal) (rest : List Char) :
    vDelim (encArrTail l ++ rest) := by
  cases l with
  | nil => exact Or.inr (Or.inl rfl)
  | cons v vs => exact Or.inl rfl

theorem vDelim_objTail (l : List (String × JVal)) (rest : List Char) :
    vDelim (encObjTail l ++ rest) := by
  cases l with
  | nil => exact Or.inr (Or.inr rfl)
  | cons kv t => exact Or.inl rfl

theorem encV_length_pos (v : JVal) : 1 ≤ (encV v).length := by
  obtain ⟨c, t, h, _⟩ := encV_head v
  rw [h]
  simp

theorem encArrTail_length_pos (l : List JVal) : 1 ≤ (encArrTail l).length := by
  cases l <;> simp [encArrTail]

theorem encObjTail_length_pos (l : List (String × JVal)) : 1 ≤ (encObjTail l).length := by
  cases l with
  | nil => simp [encObjTail]
  | cons kv t =>
    obtain ⟨k, v⟩ := kv
    simp [encObjTail]

/-- Soundness of the reader on serializer output, by induction on fuel:
with enough fuel, reading the rendering of a canonical value followed
by a legitimate delimiter returns exactly that value. -/
theorem parse_sound : ∀ fuel,
    (∀ v rest, canonV v = true → (encV v).length < fuel → vDelim rest →
       parseV fuel (encV v ++ rest) = some (v, rest)) ∧
    (∀ l rest, canonArr l = true → (encArrTail l).length < fuel → vDelim rest →
       parseArrTail fuel (encArrTail l ++ rest) = some (l, rest)) ∧
    (∀ l rest, canonObj l = true → (encObjTail l).length < fuel → vDelim rest →
       parseObjTail fuel (encObjTail l ++ rest) = some (l, rest)) := by
  intro fuel
  induction fuel with
  | zero =>
    refine ⟨?_, ?_, ?_⟩ <;> intro x rest _ hlen _ <;> omega
  | succ n ih =>
    obtain ⟨ihV, ihA, ihO⟩ := ih
    refine ⟨?_, ?_, ?_⟩
    · intro v rest hcan hlen hrest
      cases v with
      | null => exact parseV_nullEq n rest
      | bool b =>
        cases b
        · exact parseV_falseEq n rest
        · exact parseV_trueEq n rest
      | num m e =>
        obtain ⟨c, t, hct, hc⟩ := encNum_head m e
        obtain ⟨h1, h2, h3, h4, h5, h6⟩ := numHead_facts hc
        show parseV (n + 1) (encNum m e ++ rest) = some (.num m e, rest)
        rw [hct, List.cons_append]
        simp only [parseV]
        rw [if_neg h1, if_neg h2, if_neg h3, if_neg h4, if_neg h5, if_neg h6]
        rw [← List.cons_append, ← hct]
        exact parseNum_encNum m e rest (numDelim_of_vDelim hrest)
      | str s =>
        have hplain : ∀ c ∈ s.data, plainChar c = true := by
          simp only [canonV, List.all_eq_true] at hcan
          exact hcan
        show parseV (n + 1) ('"' :: ((s.data ++ ['"']) ++ rest)) = some (.str s, rest)
        rw [List.append_assoc, parseV_strEq,
          show ['"'] ++ rest = '"' :: rest from rfl,
          parseStrBody_enc s rest hplain]
        rfl
      | arr l =>
        cases l with
        | nil => exact parseV_arrNil n rest
        | cons v vs =>
          have hcv : canonV v = true ∧ canonArr vs = true := by
            simp only [canonV, canonArr, Bool.and_eq_true] at hcan
            exact hcan
          obtain ⟨c0, t0, hct0, hc0⟩ := encV_head v
          have hne0 := (startChar_facts hc0).1
          have hlen2 : (encV v).length + (encArrTail vs).length + 1 < n + 1 := by
            have heq : (encV (JVal.arr (v :: vs))).length
                = ('[' :: (encV v ++ encArrTail vs)).length := rfl
            rw [heq] at hlen
            simp only [List.length_cons, List.length_append] at hlen
            omega
          have hpos1 := encV_length_pos v
          have hpos2 := encArrTail_length_pos vs
          show parseV (n + 1) ('[' :: ((encV v ++ encArrTail vs) ++ rest))
              = some (.arr (v :: vs), rest)
          rw [List.append_assoc, hct0, List.cons_append,
            parseV_arrCons n c0 _ hne0, ← List.cons_append, ← hct0,
            ihV v (encArrTail vs ++ rest) hcv.1 (by omega) (vDelim_arrTail vs rest)]
          simp only [optBind_some]
          rw [ihA vs rest hcv.2 (by omega) hrest]
          rfl
      | obj l =>
        cases l with
        | nil => exact parseV_objNil n rest
        | cons kv t =>
          obtain ⟨k, v⟩ := kv
          have hck : (∀ c ∈ k.data, plainChar c = true)
              ∧ canonV v = true ∧ canonObj t = true := by
            simp only [canonV, canonObj, Bool.and_eq_true, List.all_eq_true] at hcan
            tauto
          obtain ⟨c0, t0, hct0, hc0⟩ := encV_head v
          have hlen2 : k.data.length + (encV v).length + (encObjTail t).length + 4
              < n + 2 := by
            have heq : (encV (JVal.obj ((k, v) :: t))).length
                = ('{' :: (('"' :: k.data) ++ ('"' :: ':' :: (encV v ++ encObjTail t)))).length
                := rfl
            rw [heq] at hlen
            simp only [List.length_cons, List.length_append] at hlen
            omega
          have hpos1 := encV_length_pos v
          have hpos2 := encObjTail_length_pos t
          show parseV (n + 1)
              ('{' :: ((('"' :: k.data) ++ ('"' :: ':' :: (encV v ++ encObjTail t))) ++ rest))
              = some (.obj ((k, v) :: t), rest)
          rw [List.append_assoc, List.cons_append,
            parseV_objCons n '"' _ (by decide)]
          simp only [List.append_assoc, List.cons_append]
          rw [parseKey_enc k (encV v ++ (encObjTail t ++ rest)) hck.1]
          simp only [optBind_some]
          rw [ihV v (encObjTail t ++ rest) hck.2.1 (by omega) (vDelim_objTail t rest)]
          simp only [optBind_some]
          rw [ihO t rest hck.2.2 (by omega) hrest]
          rfl
    · intro l rest hcan hlen hrest
      cases l with
      | nil => exact parseArrTail_close n rest
      | cons v vs =>
        have hcv : canonV v = true ∧ canonArr vs = true := by
          simp only [canonArr, Bool.and_eq_true] at hcan
          exact hcan
        have hlen2 : (encV v).length + (encArrTail vs).length + 1 < n + 1 := by
          have heq : (encArrTail (v :: vs)).length
              = (',' :: (encV v ++ encArrTail vs)).length := rfl
          rw [heq] at hlen
          simp only [List.length_cons, List.length_append] at hlen
          omega
        have hpos1 := encV_length_pos v
        have hpos2 := encArrTail_length_pos vs
        show parseArrTail (n + 1) (',' :: ((encV v ++ encArrTail vs) ++ rest))
            = some (v :: vs, rest)
        rw [List.append_assoc, parseArrTail_comma,
          ihV v (encArrTail vs ++ rest) hcv.1 (by omega) (vDelim_arrTail vs rest)]
        simp only [optBind_some]
        rw [ihA vs rest hcv.2 (by omega) hrest]
        rfl
    · intro l rest hcan hlen hrest
      cases l with
      | nil => exact parseObjTail_close n rest
      | cons kv t =>
        obtain ⟨k, v⟩ := kv
        have hck : (∀ c ∈ k.data, plainChar c = true)
            ∧ canonV v = true ∧ canonObj t = true := by
          simp only [canonObj, Bool.and_eq_true, List.all_eq_true] at hcan
          tauto
        have hlen2 : k.data.length + (encV v).length + (encObjTail t).length + 4
            < n + 2 := by
          have heq : (encObjTail ((k, v) :: t)).length
              = (',' :: '"' :: (k.data ++ ('"' :: ':' :: (encV v ++ encObjTail t)))).length
              := rfl
          rw [heq] at hlen
          simp only [List.length_cons, List.length_append] at hlen
          omega
        have hpos1 := encV_length_pos v
        have hpos2 := encObjTail_length_pos t
        show parseObjTail (n + 1)
            ((',' :: '"' :: (k.data ++ ('"' :: ':' :: (encV v ++ encObjTail t)))) ++ rest)
            = some ((k, v) :: t, rest)
        rw [List.cons_append, parseObjTail_comma]
        simp only [List.append_assoc, List.cons_append]
        rw [parseKey_enc k (encV v ++ (encObjTail t ++ rest)) hck.1]
        simp only [optBind_some]
        rw [ihV v (encObjTail t ++ rest) hck.2.1 (by omega) (vDelim_objTail t rest)]
        simp only [optBind_some]
        rw [ihO t rest hck.2.2 (by omega) hrest]
        rfl

/-- The modelled `json.loads` inverts the modelled `json.dumps` on
canonical documents. -/
theorem jsonParse_encode (v : JVal) (h : canonV v = true) :
    jsonParse (jsonEncode v) = some v := by
  have hdata : (jsonEncode v).data = encV v := rfl
  simp only [jsonParse, hdata]
  have hp := (parse_sound ((encV v).length + 1)).1 v [] h (by omega) trivial
  rw [List.append_nil] at hp
  rw [hp]

theorem encNat_ascii (n : Nat) : ∀ c ∈ encNat n, c.toNat < 128 := by
  intro c hc
  have := isDig_toNat ((encNat_spec n).2.1 c hc)
  omega

theorem encNum_ascii (m : Int) (e : Nat) : ∀ c ∈ encNum m e, c.toNat < 128 := by
  intro c hc
  rcases Nat.eq_zero_or_pos e with he | he
  · subst he
    rw [encNum_zero] at hc
    rcases List.mem_append.mp hc with hc | hc
    · by_cases hm : m < 0
      · rw [if_pos hm] at hc
        simp only [List.mem_singleton] at hc
        subst hc; decide
      · rw [if_neg hm] at hc
        simp at hc
    · exact encNat_ascii _ c hc
  · rw [encNum_frac m e (by omega)] at hc
    rcases List.mem_append.mp hc with hc | hc
    · by_cases hm : m < 0
      · rw [if_pos hm] at hc
        simp only [List.mem_singleton] at hc
        subst hc; decide
      · rw [if_neg hm] at hc
        simp at hc
    · rcases List.mem_append.mp hc with hc | hc
      · exact encNat_ascii _ c hc
      · simp only [List.mem_cons] at hc
        rcases hc with hc | hc
        · subst hc; decide
        · rcases List.mem_append.mp hc with hc | hc
          · rw [List.eq_of_mem_replicate hc]; decide
          · exact encNat_ascii _ c hc

/-- Every character the serializer emits for a canonical document is
ASCII. -/
theorem encV_ascii : ∀ v, canonV v = true → ∀ c ∈ encV v, c.toNat < 128 := by
  refine JVal.recAux (fun v => canonV v = true → ∀ c ∈ encV v, c.toNat < 128)
    ?_ ?_ ?_ ?_ ?_ ?_
  · intro _ c hc
    simp only [encV, nullChars, List.mem_cons, List.not_mem_nil, or_false] at hc
    rcases hc with h | h | h | h <;> subst h <;> decide
  · intro b _ c hc
    cases b
    · simp only [encV, falseChars, List.mem_cons, List.not_mem_nil, or_false] at hc
      rcases hc with h | h | h | h | h <;> subst h <;> decide
    · simp only [encV, trueChars, List.mem_cons, List.not_mem_nil, or_false] at hc
      rcases hc with h | h | h | h <;> subst h <;> decide
  · intro m e _ c hc
    exact encNum_ascii m e c hc
  · intro s hcan c hc
    simp only [canonV, List.all_eq_true] at hcan
    have hc2 : c ∈ ('"' :: s.data) ++ ['"'] := hc
    rcases List.mem_append.mp hc2 with h | h
    · simp only [List.mem_cons] at h
      rcases h with h | h
      · subst h; decide
      · have := (plainChar_spec (hcan c h)).2.1
        omega
    · simp only [List.mem_singleton] at h
      subst h; decide
  · intro l ihmem hcan c hc
    have hbody : ∀ l2 : List JVal,
        (∀ v ∈ l2, canonV v = true → ∀ c ∈ encV v, c.toNat < 128) →
        canonArr l2 = true →
        (∀ c ∈ encArrBody l2, c.toNat < 128) ∧ (∀ c ∈ encArrTail l2, c.toNat < 128) := by
      intro l2
      induction l2 with
      | nil =>
        intro _ _
        constructor <;> intro c hc <;> simp only [encArrBody, encArrTail,
          List.mem_singleton] at hc <;> (subst hc; decide)
      | cons v vs ihl =>
        intro hmem hcan2
        have hcv : canonV v = true ∧ canonArr vs = true := by
          simp only [canonArr, Bool.and_eq_true] at hcan2
          exact hcan2
        obtain ⟨_, ihtail⟩ := ihl (fun u hu => hmem u (by simp [hu])) hcv.2
        have hv := hmem v (by simp) hcv.1
        constructor
        · intro c hc
          simp only [encArrBody] at hc
          rcases List.mem_append.mp hc with hc | hc
          · exact hv c hc
          · exact ihtail c hc
        · intro c hc
          simp only [encArrTail, List.mem_cons] at hc
          rcases hc with hc | hc
          · subst hc; decide
          · rcases List.mem_append.mp hc with hc | hc
            · exact hv c hc
            · exact ihtail c hc
    have hcan2 : canonArr l = true := hcan
    simp only [encV, List.mem_cons] at hc
    rcases hc with hc | hc
    · subst hc; decide
    · exact (hbody l ihmem hcan2).1 c hc
  · intro l ihmem hcan c hc
    have hbody : ∀ l2 : List (String × JVal),
        (∀ kv ∈ l2, canonV kv.2 = true → ∀ c ∈ encV kv.2, c.toNat < 128) →
        canonObj l2 = true →
        (∀ c ∈ encObjBody l2, c.toNat < 128) ∧ (∀ c ∈ encObjTail l2, c.toNat < 128) := by
      intro l2
      induction l2 with
      | nil =>
        intro _ _
        constructor <;> intro c hc <;> simp only [encObjBody, encObjTail,
          List.mem_singleton] at hc <;> (subst hc; decide)
      | cons kv t ihl =>
        obtain ⟨k, v⟩ := kv
        intro hmem hcan2
        have hck : (∀ c ∈ k.data, plainChar c = true)
            ∧ canonV v = true ∧ canonObj t = true := by
          simp only [canonObj, Bool.and_eq_true, List.all_eq_true] at hcan2
          tauto
        obtain ⟨_, ihtail⟩ := ihl (fun u hu => hmem u (by simp [hu])) hck.2.2
        have hv := hmem (k, v) (by simp) hck.2.1
        have hkey : ∀ c ∈ k.data, c.toNat < 128 := by
          intro c hc
          have := (plainChar_spec (hck.1 c hc)).2.1
          omega
        have hfield : ∀ c ∈ ('"' :: k.data) ++ ('"' :: ':' :: (encV v ++ encObjTail t)),
            c.toNat < 128 := by
          intro c hc
          rcases List.mem_append.mp hc with hc | hc
          · simp only [List.mem_cons] at hc
            rcases hc with hc | hc
            · subst hc; decide
            · exact hkey c hc
          · simp only [List.mem_cons] at hc
            rcases hc with hc | hc
            · subst hc; decide
            · rcases hc with hc | hc
              · subst hc; decide
              · rcases List.mem_append.mp hc with hc | hc
                · exact hv c hc
                · exact ihtail c hc
        constructor
        · intro c hc
          exact hfield c hc
        · intro c hc
          have hc2 : c ∈ ',' :: (('"' :: k.data) ++ ('"' :: ':' :: (encV v ++ encObjTail t))) := hc
          simp only [List.mem_cons] at hc2
          rcases hc2 with hc2 | hc2
          · subst hc2; decide
          · exact hfield c (List.mem_cons.mpr (by
              rcases List.mem_append.mp hc2 with h | h
              · simp only [List.mem_cons] at h
                rcases h with h | h
                · exact Or.inl h
                · exact Or.inr (List.mem_append.mpr (Or.inl h))
              · exact Or.inr (List.mem_append.mpr (Or.inr h))))
    have hcan2 : canonObj l = true := hcan
    simp only [encV, List.mem_cons] at hc
    rcases hc with hc | hc
    · subst hc; decide
    · exact (hbody l ihmem hcan2).1 c hc

theorem b64CharInv_b64Char : ∀ n, n < 64 → b64CharInv (b64Char n) = some n := by decide

theorem b64Char_ne_eq : ∀ n, n < 64 → ¬(b64Char n = '=') := by decide

theorem optBindM_some {α β : Type} (a : α) (f : α → Option β) :
    ((some a : Option α) >>= f) = f a := rfl

theorem b64Char_ascii : ∀ n, n < 64 → (b64Char n).toNat < 128 := by decide

theorem b64scan_step0 (ch : Char) (r : List Char) (v : Nat)
    (hne : ¬(ch = '=')) (hv : b64CharInv ch = some v) :
    b64scan (ch :: r) [] = b64scan r [v] := by
  simp only [b64scan]
  rw [if_neg hne, hv]
  rfl

theorem b64scan_step1 (ch : Char) (r : List Char) (a v : Nat)
    (hne : ¬(ch = '=')) (hv : b64CharInv ch = some v) :
    b64scan (ch :: r) [a] = b64scan r [a, v] := by
  simp only [b64scan]
  rw [if_neg hne, hv]
  rfl

theorem b64scan_step2 (ch : Char) (r : List Char) (a b v : Nat)
    (hne : ¬(ch = '=')) (hv : b64CharInv ch = some v) :
    b64scan (ch :: r) [a, b] = b64scan r [a, b, v] := by
  simp only [b64scan]
  rw [if_neg hne, hv]
  rfl

theorem b64scan_step3 (ch : Char) (r : List Char) (a b c v : Nat)
    (hne : ¬(ch = '=')) (hv : b64CharInv ch = some v) :
    b64scan (ch :: r) [a, b, c] = (b64scan r []).map (fun t =>
      (a * 4 + b / 16) :: (b % 16 * 16 + c / 4) :: (c % 4 * 64 + v) :: t) := by
  simp only [b64scan]
  rw [if_neg hne, hv]

theorem b64scan_pad2 (r : List Char) (a b : Nat) :
    b64scan ('=' :: r) [a, b] = b64padTail a b r := by
  simp only [b64scan]
  exact if_pos trivial

theorem b64scan_pad3 (r : List Char) (a b c : Nat) :
    b64scan ('=' :: r) [a, b, c] = some [a * 4 + b / 16, b % 16 * 16 + c / 4] := by
  simp only [b64scan]
  exact if_pos trivial

theorem b64padTail_close (a b : Nat) : b64padTail a b ['='] = some [a * 4 + b / 16] := rfl

theorem b64encode_ascii : ∀ n (bs : List Nat), bs.length ≤ n → (∀ b ∈ bs, b < 256) →
    ∀ c ∈ b64encode bs, c.toNat < 128 := by
  intro n
  induction n with
  | zero =>
    intro bs hl _
    have hnil : bs = [] := List.eq_nil_of_length_eq_zero (by omega)
    subst hnil
    intro c hc
    simp only [b64encode, List.not_mem_nil] at hc
  | succ n ihn =>
    intro bs hl hb
    rcases bs with _ | ⟨a, bs1⟩
    · intro c hc
      simp only [b64encode, List.not_mem_nil] at hc
    rcases bs1 with _ | ⟨b, bs2⟩
    · have ha : a < 256 := hb a (by simp)
      intro c hc
      simp only [b64encode, List.mem_cons, List.not_mem_nil, or_false] at hc
      rcases hc with h | h | h | h <;> subst h
      · exact b64Char_ascii _ (by omega)
      · exact b64Char_ascii _ (by omega)
      · decide
      · decide
    rcases bs2 with _ | ⟨cb, t⟩
    · have ha : a < 256 := hb a (by simp)
      have hbb : b < 256 := hb b (by simp)
      intro c hc
      simp only [b64encode, List.mem_cons, List.not_mem_nil, or_false] at hc
      rcases hc with h | h | h | h <;> subst h
      · exact b64Char_ascii _ (by omega)
      · exact b64Char_ascii _ (by omega)
      · exact b64Char_ascii _ (by omega)
      · decide
    · have ha : a < 256 := hb a (by simp)
      have hbb : b < 256 := hb b (by simp)
      have hcb : cb < 256 := hb cb (by simp)
      intro c hc
      simp only [b64encode, List.mem_cons] at hc
      rcases hc with h | h | h | h | h
      · subst h; exact b64Char_ascii _ (by omega)
      · subst h; exact b64Char_ascii _ (by omega)
      · subst h; exact b64Char_ascii _ (by omega)
      · subst h; exact b64Char_ascii _ (by omega)
      · exact ihn t (by simp only [List.length_cons] at hl; omega)
          (fun x hx => hb x (by simp [hx])) c h

theorem b64scan_encode : ∀ n (bs : List Nat), bs.length ≤ n → (∀ b ∈ bs, b < 256) →
    b64scan (b64encode bs) [] = some bs := by
  intro n
  induction n with
  | zero =>
    intro bs hl _
    have hnil : bs = [] := List.eq_nil_of_length_eq_zero (by omega)
    subst hnil
    rfl
  | succ n ihn =>
    intro bs hl hb
    rcases bs with _ | ⟨a, bs1⟩
    · rfl
    rcases bs1 with _ | ⟨b, bs2⟩
    · have ha : a < 256 := hb a (by simp)
      show b64scan [b64Char (a / 4), b64Char (a % 4 * 16), '=', '='] [] = some [a]
      rw [b64scan_step0 _ _ _ (b64Char_ne_eq _ (by omega)) (b64CharInv_b64Char _ (by omega)),
        b64scan_step1 _ _ _ _ (b64Char_ne_eq _ (by omega)) (b64CharInv_b64Char _ (by omega)),
        b64scan_pad2, b64padTail_close]
      have e1 : a / 4 * 4 + a % 4 * 16 / 16 = a := by omega
      rw [e1]
    rcases bs2 with _ | ⟨c, t⟩
    · have ha : a < 256 := hb a (by simp)
      have hbb : b < 256 := hb b (by simp)
      show b64scan [b64Char (a / 4), b64Char (a % 4 * 16 + b / 16),
          b64Char (b % 16 * 4), '='] [] = some [a, b]
      rw [b64scan_step0 _ _ _ (b64Char_ne_eq _ (by omega)) (b64CharInv_b64Char _ (by omega)),
        b64scan_step1 _ _ _ _ (b64Char_ne_eq _ (by omega)) (b64CharInv_b64Char _ (by omega)),
        b64scan_step2 _ _ _ _ _ (b64Char_ne_eq _ (by omega)) (b64CharInv_b64Char _ (by omega)),
        b64scan_pad3]
      have e1 : a / 4 * 4 + (a % 4 * 16 + b / 16) / 16 = a := by omega
      have e2 : (a % 4 * 16 + b / 16) % 16 * 16 + b % 16 * 4 / 4 = b := by omega
      rw [e1, e2]
    · have ha : a < 256 := hb a (by simp)
      have hbb : b < 256 := hb b (by simp)
      have hcc : c < 256 := hb c (by simp)
      show b64scan (b64Char (a / 4) :: b64Char (a % 4 * 16 + b / 16) ::
          b64Char (b % 16 * 4 + c / 64) :: b64Char (c % 64) :: b64encode t) []
        = some (a :: b :: c :: t)
      rw [b64scan_step0 _ _ _ (b64Char_ne_eq _ (by omega)) (b64CharInv_b64Char _ (by omega)),
        b64scan_step1 _ _ _ _ (b64Char_ne_eq _ (by omega)) (b64CharInv_b64Char _ (by omega)),
        b64scan_step2 _ _ _ _ _ (b64Char_ne_eq _ (by omega)) (b64CharInv_b64Char _ (by omega)),
        b64scan_step3 _ _ _ _ _ _ (b64Char_ne_eq _ (by omega)) (b64CharInv_b64Char _ (by omega))]
      rw [ihn t (by simp only [List.length_cons] at hl; omega)
        (fun x hx => hb x (by simp [hx]))]
      simp only [Option.map]
      have e1 : a / 4 * 4 + (a % 4 * 16 + b / 16) / 16 = a := by omega
      have e2 : (a % 4 * 16 + b / 16) % 16 * 16 + (b % 16 * 4 + c / 64) / 4 = b := by omega
      have e3 : (b % 16 * 4 + c / 64) % 4 * 64 + c % 64 = c := by omega
      rw [e1, e2, e3]

/-- The modelled base64 decoder inverts the encoder on byte lists. -/
theorem b64_roundtrip (bs : List Nat) (h : ∀ b ∈ bs, b < 256) :
    b64decodeChars (b64encode bs) = some bs := by
  have hascii : ((b64encode bs).all fun c => decide (c.toNat < 128)) = true := by
    simp only [List.all_eq_true, decide_eq_true_eq]
    exact b64encode_ascii bs.length bs le_rfl h
  simp only [b64decodeChars]
  rw [if_pos hascii]
  exact b64scan_encode bs.length bs le_rfl h

theorem bytesToStr_strToBytes (s : String) (h : ∀ c ∈ s.data, c.toNat < 128) :
    bytesToStr (strToBytes s) = some s := by
  have hall : ((List.map Char.toNat s.data).all fun b => decide (b < 128)) = true := by
    simp only [List.all_eq_true, List.mem_map, decide_eq_true_eq]
    rintro b ⟨c, hc, rfl⟩
    exact h c hc
  have hmapid : List.map (Char.ofNat ∘ Char.toNat) s.data = s.data := by
    conv_rhs => rw [← List.map_id s.data]
    exact List.map_congr_left (fun c _ => Char.ofNat_toNat c)
  simp only [bytesToStr, strToBytes, List.map_map, hmapid, if_pos hall]

/-- The compressed-payload strategy decodes its own encoding chain. -/
theorem decodeStrategy1_roundtrip (D : JVal) (h : canonV D = true) :
    decodeStrategy1 (String.mk (b64encode (gzipCompress (strToBytes (jsonEncode D)))))
      = some D := by
  have hbytes : ∀ b ∈ gzipCompress (strToBytes (jsonEncode D)), b < 256 := by
    intro b hb
    simp only [gzipCompress, List.mem_cons] at hb
    rcases hb with hb | hb | hb
    · omega
    · omega
    · simp only [strToBytes, List.mem_map] at hb
      obtain ⟨c, hc, rfl⟩ := hb
      have := encV_ascii D h c hc
      omega
  simp only [decodeStrategy1]
  rw [b64_roundtrip _ hbytes]
  simp only [optBind_some]
  rw [show gzipDecompress (gzipCompress (strToBytes (jsonEncode D)))
        = some (strToBytes (jsonEncode D)) from rfl]
  simp only [optBind_some]
  rw [bytesToStr_strToBytes (jsonEncode D) (fun c hc => encV_ascii D h c hc)]
  simp only [optBind_some]
  exact jsonParse_encode D h

/-- Characterization of successful extraction: the document is a
mapping, every navigated nesting is a mapping, the identifier is
truthy, the last-timestamp step does not raise, and the record is the
dict literal of the source. -/
theorem extract_ok_shape {p r : JVal} (h : extract_call_data p = .ok (some r)) :
    ∃ pl ml cl al ts, p = .obj pl ∧
      fieldsGetD pl "message" (.obj []) = .obj ml ∧
      fieldsGetD ml "call" (.obj []) = .obj cl ∧
      truthy ((fieldsGet cl "id").getD .null) = true ∧
      fieldsGetD ml "artifact" (.obj []) = .obj al ∧
      lastTsStep (fieldsGetD al "messages" (.arr [])) = .ok ts ∧
      r = extractRecord cl ml ts := by
  cases p with
  | null => exact absurd h (by simp [extract_call_data])
  | bool b => exact absurd h (by simp [extract_call_data])
  | num m e => exact absurd h (by simp [extract_call_data])
  | str s => exact absurd h (by simp [extract_call_data])
  | arr l => exact absurd h (by simp [extract_call_data])
  | obj pl =>
    simp only [extract_call_data] at h
    split at h
    case _ ml hml =>
      split at h
      case _ cl hcl =>
        split at h
        case isTrue htr =>
          split at h
          case _ al hal =>
            split at h
            case _ e hts => exact absurd h (by simp)
            case _ ts hts =>
              refine ⟨pl, ml, cl, al, ts, rfl, hml, hcl, htr, hal, hts, ?_⟩
              simpa using h.symm
          case _ hal => exact absurd h (by simp)
        case isFalse htr => exact absurd h (by simp)
      case _ hcl => exact absurd h (by simp)
    case _ hml => exact absurd h (by simp)

theorem computeDiff_some {d t : JVal} {x y : Int × Nat}
    (hx : pyFloat d = some x) (hy : pyFloat t = some y) :
    computeDiff d t = .num (decSub x y).1 (decSub x y).2 := by
  have hd : ¬(d = .null) := by
    intro he
    subst he
    simp [pyFloat] at hx
  have ht : ¬(t = .null) := by
    intro he
    subst he
    simp [pyFloat] at hy
  simp only [computeDiff, hx, hy, if_neg (by tauto : ¬(d = JVal.null ∨ t = JVal.null))]

theorem computeDiff_none {d t : JVal}
    (h : pyFloat d = none ∨ pyFloat t = none) : computeDiff d t = .null := by
  by_cases hnull : d = JVal.null ∨ t = JVal.null
  · simp only [computeDiff, if_pos hnull]
  · simp only [computeDiff, if_neg hnull]
    rcases h with h | h
    · rw [h]
    · rw [h]
      cases pyFloat d <;> rfl

theorem decVal_decSub (a b : Int × Nat) :
    decVal (decSub a b).1 (decSub a b).2 = decVal a.1 a.2 - decVal b.1 b.2 := by
  obtain ⟨m1, e1⟩ := a
  obtain ⟨m2, e2⟩ := b
  simp only [decSub, decVal]
  have h1 : ((10 : ℚ) ^ e1) ≠ 0 := by positivity
  have h2 : ((10 : ℚ) ^ e2) ≠ 0 := by positivity
  rw [pow_add]
  push_cast
  field_simp
  ring


theorem lastTsStep_falsy {m : JVal} (h : truthy m = false) : lastTsStep m = .ok .null := by
  simp [lastTsStep, h]

theorem callId_agree {pl ml cl : List (String × JVal)}
    (hml : fieldsGetD pl "message" (.obj []) = .obj ml)
    (hcl : fieldsGetD ml "call" (.obj []) = .obj cl) :
    callIdSpec (.obj pl) = (fieldsGet cl "id").getD .null := by
  simp only [callIdSpec, pathGet]
  cases hm : fieldsGet pl "message" with
  | none =>
    have hml0 : ml = [] := by
      simp only [fieldsGetD, hm, Option.getD_none, JVal.obj.injEq] at hml
      exact hml.symm
    subst hml0
    have hcl0 : cl = [] := by
      simp only [fieldsGetD, fieldsGet, Option.getD_none, JVal.obj.injEq] at hcl
      exact hcl.symm
    subst hcl0
    rfl
  | some mv =>
    have hmv : mv = .obj ml := by
      simp only [fieldsGetD, hm, Option.getD_some] at hml
      exact hml
    subst hmv
    simp only [Option.some_bind, pathGet]
    cases hc : fieldsGet ml "call" with
    | none =>
      have hcl0 : cl = [] := by
        simp only [fieldsGetD, hc, Option.getD_none, JVal.obj.injEq] at hcl
        exact hcl.symm
      subst hcl0
      rfl
    | some cv =>
      have hcv : cv = .obj cl := by
        simp only [fieldsGetD, hc, Option.getD_some] at hcl
        exact hcl
      subst hcv
      rfl

theorem lastTs_agree {pl ml al : List (String × JVal)} {ts : JVal}
    (hml : fieldsGetD pl "message" (.obj []) = .obj ml)
    (hal : fieldsGetD ml "artifact" (.obj []) = .obj al)
    (hts : lastTsStep (fieldsGetD al "messages" (.arr [])) = .ok ts) :
    lastTsSpec (.obj pl) = ts := by
  simp only [lastTsSpec, pathGet]
  cases hm : fieldsGet pl "message" with
  | none =>
    have hml0 : ml = [] := by
      simp only [fieldsGetD, hm, Option.getD_none, JVal.obj.injEq] at hml
      exact hml.symm
    subst hml0
    have hal0 : al = [] := by
      simp only [fieldsGetD, fieldsGet, Option.getD_none, JVal.obj.injEq] at hal
      exact hal.symm
    subst hal0
    have h0 : (Except.ok JVal.null : Except String JVal) = .ok ts := hts
    cases h0
    rfl
  | some mv =>
    have hmv : mv = .obj ml := by
      simp only [fieldsGetD, hm, Option.getD_some] at hml
      exact hml
    subst hmv
    simp only [Option.some_bind, pathGet]
    cases ha : fieldsGet ml "artifact" with
    | none =>
      have hal0 : al = [] := by
        simp only [fieldsGetD, ha, Option.getD_none, JVal.obj.injEq] at hal
        exact hal.symm
      subst hal0
      have h0 : (Except.ok JVal.null : Except String JVal) = .ok ts := hts
      cases h0
      rfl
    | some av =>
      have hav : av = .obj al := by
        simp only [fieldsGetD, ha, Option.getD_some] at hal
        exact hal
      subst hav
      simp only [Option.some_bind, pathGet]
      cases hms : fieldsGet al "messages" with
      | none =>
        have hmsd : fieldsGetD al "messages" (.arr []) = .arr [] := by
          simp [fieldsGetD, hms]
        rw [hmsd] at hts
        have h0 : (Except.ok JVal.null : Except String JVal) = .ok ts := hts
        cases h0
        rfl
      | some msv =>
        have hmsd : fieldsGetD al "messages" (.arr []) = msv := by
          simp [fieldsGetD, hms]
        rw [hmsd] at hts
        simp only [Option.getD_some]
        cases msv with
        | arr l =>
          simp only [lastOfMessages]
          cases l with
          | nil =>
            have h0 : (Except.ok JVal.null : Except String JVal) = .ok ts := hts
            cases h0
            rfl
          | cons x xs =>
            have htru : truthy (JVal.arr (x :: xs)) = true := by simp [truthy]
            simp only [lastTsStep, htru, if_pos] at hts
            cases hlast : (x :: xs).getLast? with
            | none =>
              rw [List.getLast?_eq_none_iff] at hlast
              cases hlast
            | some lastv =>
              rw [hlast] at hts
              cases lastv with
              | obj lo => exact Except.ok.inj hts
              | null => cases hts
              | bool b => cases hts
              | num m e => cases hts
              | str s => cases hts
              | arr l2 => cases hts
        | null =>
          have h0 : (Except.ok JVal.null : Except String JVal) = .ok ts := hts
          cases h0
          rfl
        | bool b =>
          cases b
          · have h0 : (Except.ok JVal.null : Except String JVal) = .ok ts := hts
            cases h0
            rfl
          · exact absurd hts (by simp [lastTsStep, truthy])
        | num m e =>
          by_cases hm0 : m = 0
          · subst hm0
            rw [lastTsStep_falsy (by simp [truthy])] at hts
            have h0 : (Except.ok JVal.null : Except String JVal) = .ok ts := hts
            cases h0
            rfl
          · exact absurd hts (by simp [lastTsStep, truthy, hm0])
        | str s =>
          cases hsd : s.data with
          | nil =>
            rw [lastTsStep_falsy (by simp [truthy, hsd])] at hts
            have h0 : (Except.ok JVal.null : Except String JVal) = .ok ts := hts
            cases h0
            rfl
          | cons c cs =>
            exact absurd hts (by simp [lastTsStep, truthy, hsd])
        | obj lo =>
          cases lo with
          | nil =>
            have h0 : (Except.ok JVal.null : Except String JVal) = .ok ts := hts
            cases h0
            rfl
          | cons kv t2 =>
            exact absurd hts (by simp [lastTsStep, truthy])

theorem pyIndex_ok {cd cid : JVal} (h : pyIndex cd "callID" = .ok cid) :
    getCallID cd = cid := by
  cases cd with
  | obj l =>
    simp only [pyIndex] at h
    cases hf : fieldsGet l "callID" with
    | none => rw [hf] at h; cases h
    | some x =>
      rw [hf] at h
      have hx := Except.ok.inj h
      simp [getCallID, pathGet, hf, hx]
  | null => cases h
  | bool b => cases h
  | num m e => cases h
  | str s => cases h
  | arr l => cases h

theorem setMem_ok {seen : List JVal} {x : JVal} {b : Bool} (h : setMem seen x = .ok b) :
    b = seen.any (fun y => pyEq x y) := by
  simp only [setMem] at h
  split at h
  · exact (Except.ok.inj h).symm
  · cases h

/-- A successful run of the dedup loop produces exactly the
first-occurrence dedup of the per-record extraction sequence. -/
theorem processAux_dedup : ∀ (ws seen rs : List JVal), processAux ws seen = .ok rs →
    ∃ es, extractAll ws = .ok es ∧ rs = firstOccurDedup es seen := by
  intro ws
  induction ws with
  | nil =>
    intro seen rs h
    have h0 : rs = [] := (Except.ok.inj h).symm
    subst h0
    exact ⟨[], rfl, rfl⟩
  | cons w t ih =>
    intro seen rs h
    cases w with
    | obj wl =>
      simp only [processAux] at h
      cases hx : extract_call_data (decode_payload (fieldsGetD wl "payload" (.obj []))) with
      | error e => simp only [hx] at h; cases h
      | ok cdo =>
        simp only [hx] at h
        cases cdo with
        | none =>
          obtain ⟨es, he, hd⟩ := ih seen rs h
          exact ⟨es, by simp [extractAll, hx, he], hd⟩
        | some cd =>
          by_cases htr : truthy cd = true
          · simp only [htr, if_true] at h
            cases hidx : pyIndex cd "callID" with
            | error e => simp only [hidx] at h; cases h
            | ok cid =>
              simp only [hidx] at h
              cases hsm : setMem seen cid with
              | error e => simp only [hsm] at h; cases h
              | ok b =>
                simp only [hsm] at h
                have hb := setMem_ok hsm
                have hcid := pyIndex_ok hidx
                cases b with
                | true =>
                  obtain ⟨es, he, hd⟩ := ih seen rs h
                  refine ⟨cd :: es, by simp [extractAll, hx, htr, he], ?_⟩
                  rw [hd]
                  simp only [firstOccurDedup]
                  rw [hcid, if_pos hb.symm]
                | false =>
                  cases hp : processAux t (cid :: seen) with
                  | error e => simp only [hp] at h; cases h
                  | ok rest =>
                    simp only [hp] at h
                    have hrs : rs = cd :: rest := (Except.ok.inj h).symm
                    obtain ⟨es, he, hd⟩ := ih (cid :: seen) rest hp
                    refine ⟨cd :: es, by simp [extractAll, hx, htr, he], ?_⟩
                    rw [hrs, hd]
                    simp only [firstOccurDedup]
                    rw [hcid, if_neg (by rw [← hb]; simp)]
          · have htr2 : truthy cd = false := by
              cases hv : truthy cd
              · rfl
              · exact absurd hv htr
            simp only [htr2, Bool.false_eq_true, if_false] at h
            obtain ⟨es, he, hd⟩ := ih seen rs h
            exact ⟨es, by simp [extractAll, hx, htr2, he], hd⟩
    | null => cases h
    | bool b => cases h
    | num m e => cases h
    | str s => cases h
    | arr l => cases h

theorem mem_dedup_not_seen : ∀ (es seen : List JVal) (r : JVal),
    r ∈ firstOccurDedup es seen → seen.any (fun y => pyEq (getCallID r) y) = false := by
  intro es
  induction es with
  | nil =>
    intro seen r h
    cases h
  | cons a t ih =>
    intro seen r h
    simp only [firstOccurDedup] at h
    by_cases ha : seen.any (fun y => pyEq (getCallID a) y) = true
    · rw [if_pos ha] at h
      exact ih seen r h
    · rw [if_neg ha] at h
      simp only [List.mem_cons] at h
      rcases h with h | h
      · subst h
        cases hb : seen.any (fun y => pyEq (getCallID r) y)
        · rfl
        · exact absurd hb ha
      · have h2 := ih (getCallID a :: seen) r h
        simp only [List.any_cons, Bool.or_eq_false_iff] at h2
        exact h2.2

theorem dedup_pairwise : ∀ (es seen : List JVal),
    List.Pairwise (fun a b => pyEq (getCallID b) (getCallID a) = false)
      (firstOccurDedup es seen) := by
  intro es
  induction es with
  | nil => intro seen; exact List.Pairwise.nil
  | cons a t ih =>
    intro seen
    simp only [firstOccurDedup]
    by_cases ha : seen.any (fun y => pyEq (getCallID a) y) = true
    · rw [if_pos ha]
      exact ih seen
    · rw [if_neg ha]
      refine List.Pairwise.cons ?_ (ih (getCallID a :: seen))
      intro b hb
      have h2 := mem_dedup_not_seen t (getCallID a :: seen) b hb
      simp only [List.any_cons, Bool.or_eq_false_iff] at h2
      exact h2.1

theorem lastTsStep_shape {msv : JVal} (hshape : messagesShapeOk msv = true) :
    ∃ ts, lastTsStep msv = .ok ts := by
  cases msv with
  | arr l =>
    cases l with
    | nil => exact ⟨.null, rfl⟩
    | cons x xs =>
      simp only [messagesShapeOk] at hshape
      cases hlast : (x :: xs).getLast? with
      | none =>
        rw [List.getLast?_eq_none_iff] at hlast
        cases hlast
      | some lastv =>
        rw [hlast] at hshape
        cases lastv with
        | obj lo =>
          refine ⟨fieldsGetD lo "secondsFromStart" .null, ?_⟩
          simp [lastTsStep, truthy, hlast]
        | null => cases hshape
        | bool b => cases hshape
        | num m e => cases hshape
        | str s => cases hshape
        | arr l2 => cases hshape
  | null => exact ⟨.null, rfl⟩
  | bool b =>
    cases b
    · exact ⟨.null, rfl⟩
    · simp [messagesShapeOk, truthy] at hshape
  | num m e =>
    by_cases hm0 : m = 0
    · subst hm0
      exact ⟨.null, lastTsStep_falsy (by simp [truthy])⟩
    · simp [messagesShapeOk, truthy, hm0] at hshape
  | str s =>
    cases hd : s.data with
    | nil => exact ⟨.null, lastTsStep_falsy (by simp [truthy, hd])⟩
    | cons c cs => simp [messagesShapeOk, truthy, hd] at hshape
  | obj lo =>
    cases lo with
    | nil => exact ⟨.null, rfl⟩
    | cons kv t2 => simp [messagesShapeOk, truthy] at hshape

/-- On a benign decoded payload, extraction cannot raise, and any
record it yields is truthy with a hashable identifier under the
`callID` key. -/
theorem extract_benign {p : JVal} (h : benignPayload p = true) :
    ∃ o, extract_call_data p = .ok o ∧
      ∀ cd, o = some cd → truthy cd = true ∧
        ∃ cid, pyIndex cd "callID" = .ok cid ∧ hashable cid = true := by
  cases p with
  | obj pl =>
    simp only [benignPayload] at h
    split at h
    case _ ml hml =>
      split at h
      case _ cl hcl =>
        by_cases htr : truthy ((fieldsGet cl "id").getD .null) = true
        · simp only [htr, Bool.not_true, Bool.false_or, Bool.and_eq_true] at h
          obtain ⟨hh, hsh⟩ := h
          split at hsh
          case _ al hal =>
            obtain ⟨ts, hts⟩ := lastTsStep_shape hsh
            refine ⟨some (extractRecord cl ml ts), ?_, ?_⟩
            · simp only [extract_call_data, hml, hcl, htr, if_true, hal, hts]
            · intro cd hcd
              have hcd2 := Option.some.inj hcd
              subst hcd2
              exact ⟨rfl, (fieldsGet cl "id").getD .null, rfl, hh⟩
          case _ hal => cases hsh
        · have htr2 : truthy ((fieldsGet cl "id").getD .null) = false := by
            cases hv : truthy ((fieldsGet cl "id").getD .null)
            · rfl
            · exact absurd hv htr
          refine ⟨none, ?_, by intro cd hcd; cases hcd⟩
          simp only [extract_call_data, hml, hcl, htr2, Bool.false_eq_true, if_false]
      case _ hcl => cases h
    case _ hml => cases h
  | null => cases h
  | bool b => cases h
  | num m e => cases h
  | str s => cases h
  | arr l => cases h

/-- On benign webhooks the dedup loop never raises. -/
theorem processAux_benign : ∀ (ws : List JVal), (∀ w ∈ ws, benignWebhook w = true) →
    ∀ seen, ∃ rs, processAux ws seen = .ok rs := by
  intro ws
  induction ws with
  | nil => exact fun _ seen => ⟨[], rfl⟩
  | cons w t ih =>
    intro hb seen
    have hw := hb w (by simp)
    have ht : ∀ x ∈ t, benignWebhook x = true := fun x hx => hb x (by simp [hx])
    cases w with
    | obj wl =>
      simp only [benignWebhook] at hw
      obtain ⟨o, ho, hcd⟩ := extract_benign hw
      cases o with
      | none =>
        obtain ⟨rs, hrs⟩ := ih ht seen
        exact ⟨rs, by simp [processAux, ho, hrs]⟩
      | some cd =>
        obtain ⟨htr, cid, hidx, hh⟩ := hcd cd rfl
        cases hany : seen.any (fun y => pyEq cid y) with
        | true =>
          obtain ⟨rs, hrs⟩ := ih ht seen
          exact ⟨rs, by simp [processAux, ho, htr, hidx, setMem, hh, hany, hrs]⟩
        | false =>
          obtain ⟨rs, hrs⟩ := ih ht (cid :: seen)
          exact ⟨cd :: rs, by simp [processAux, ho, htr, hidx, setMem, hh, hany, hrs]⟩
    | null => simp [benignWebhook] at hw
    | bool b => simp [benignWebhook] at hw
    | num m e => simp [benignWebhook] at hw
    | str s => simp [benignWebhook] at hw
    | arr l => simp [benignWebhook] at hw

/-- Field of a record under spec-side total reading (`None` when the
key is missing). -/
def recField (r : JVal) (k : String) : JVal := (pathGet r k).getD .null

/-- Values that are neither a structured mapping nor a string. -/
def nonDocInput (v : JVal) : Prop :=
  match v with
  | .obj _ => False
  | .str _ => False
  | _ => True

/-- A document whose `message` nesting, and `message.call` nesting,
are mappings wherever present (the shape under which the identifier
check is reached without raising). -/
def navigableToCall (p : JVal) : Bool :=
  match p with
  | .obj pl =>
    (match fieldsGetD pl "message" (.obj []) with
     | .obj ml =>
       (match fieldsGetD ml "call" (.obj []) with
        | .obj _ => true
        | _ => false)
     | _ => false)
  | _ => false

/-- Example document: a two-field mapping. -/
def exampleDoc : JVal := .obj [("a", .num 1 0), ("b", .str "hi")]

/-- Example payload with `durationSeconds = 62.5` and a last artifact
message at `secondsFromStart = 60.0`. -/
def exampleDiffPayload : JVal := .obj [("message", .obj [
  ("call", .obj [("id", .str "call-1")]),
  ("durationSeconds", .num 625 1),
  ("artifact", .obj [("messages", .arr [
     .obj [("secondsFromStart", .num 10 0)],
     .obj [("secondsFromStart", .num 600 1)]])])])]

/-- The record extracted from `exampleDiffPayload`. -/
def exampleDiffRecord : JVal := .obj
  [("callID", .str "call-1"),
   ("dashboardURL",
    .str "https://hellocounsel-dashboard.vercel.app/calls?f=0&e=production&s=N4IgJgtiBcIJ4FMDOAXBAnMBDOIA0ISYMIATAAykBsAtOQIw2kAs%2BICxsF1djAzPRABfIA&c=call-1"),
   ("vapiCallDuration", .num 625 1),
   ("lastMessageTimeStamp", .num 600 1),
   ("difference", .num 250 2),
   ("startedAt", .null),
   ("endedAt", .null),
   ("endedReason", .null)]

/-- Example payload whose artifact messages are
`[\x7bsecondsFromStart: 1\x7d, \x7bsecondsFromStart: 9\x7d]`. -/
def exampleLastPayload : JVal := .obj [("message", .obj [
  ("call", .obj [("id", .str "call-9")]),
  ("artifact", .obj [("messages", .arr [
     .obj [("secondsFromStart", .num 1 0)],
     .obj [("secondsFromStart", .num 9 0)]])])])]

/-- The record extracted from `exampleLastPayload`. -/
def exampleLastRecord : JVal := .obj
  [("callID", .str "call-9"),
   ("dashboardURL",
    .str "https://hellocounsel-dashboard.vercel.app/calls?f=0&e=production&s=N4IgJgtiBcIJ4FMDOAXBAnMBDOIA0ISYMIATAAykBsAtOQIw2kAs%2BICxsF1djAzPRABfIA&c=call-9"),
   ("vapiCallDuration", .null),
   ("lastMessageTimeStamp", .num 9 0),
   ("difference", .null),
   ("startedAt", .null),
   ("endedAt", .null),
   ("endedReason", .null)]

/-- Four raw stored records whose callIDs run `A, B, A, C`; the two
`A`-records carry different durations (`10` first, `99` second). -/
def exampleWebhooks : List JVal :=
  [.obj [("payload", .obj [("message", .obj [
      ("call", .obj [("id", .str "A")]), ("durationSeconds", .num 10 0)])])],
   .obj [("payload", .obj [("message", .obj [
      ("call", .obj [("id", .str "B")]), ("durationSeconds", .num 20 0)])])],
   .obj [("payload", .obj [("message", .obj [
      ("call", .obj [("id", .str "A")]), ("durationSeconds", .num 99 0)])])],
   .obj [("payload", .obj [("message", .obj [
      ("call", .obj [("id", .str "C")]), ("durationSeconds", .num 30 0)])])]]

/-- The aggregate of `exampleWebhooks`: order `A, B, C`, and the
surviving `A`-record keeps the first duration `10`. -/
def exampleAggregate : List JVal :=
  [.obj
    [("callID", .str "A"),
     ("dashboardURL",
      .str "https://hellocounsel-dashboard.vercel.app/calls?f=0&e=production&s=N4IgJgtiBcIJ4FMDOAXBAnMBDOIA0ISYMIATAAykBsAtOQIw2kAs%2BICxsF1djAzPRABfIA&c=A"),
     ("vapiCallDuration", .num 10 0),
     ("lastMessageTimeStamp", .null),
     ("difference", .null),
     ("startedAt", .null),
     ("endedAt", .null),
     ("endedReason", .null)],
   .obj
    [("callID", .str "B"),
     ("dashboardURL",
      .str "https://hellocounsel-dashboard.vercel.app/calls?f=0&e=production&s=N4IgJgtiBcIJ4FMDOAXBAnMBDOIA0ISYMIATAAykBsAtOQIw2kAs%2BICxsF1djAzPRABfIA&c=B"),
     ("vapiCallDuration", .num 20 0),
     ("lastMessageTimeStamp", .null),
     ("difference", .null),
     ("startedAt", .null),
     ("endedAt", .null),
     ("endedReason", .null)],
   .obj
    [("callID", .str "C"),
     ("dashboardURL",
      .str "https://hellocounsel-dashboard.vercel.app/calls?f=0&e=production&s=N4IgJgtiBcIJ4FMDOAXBAnMBDOIA0ISYMIATAAykBsAtOQIw2kAs%2BICxsF1djAzPRABfIA&c=C"),
     ("vapiCallDuration", .num 30 0),
     ("lastMessageTimeStamp", .null),
     ("difference", .null),
     ("startedAt", .null),
     ("endedAt", .null),
     ("endedReason", .null)]]

/-- Three benign raw stored records exercising the tolerated
anomalies: an undecodable payload, a payload with no identifier, and a
non-numeric duration. -/
def exampleBenignWebhooks : List JVal :=
  [.obj [("payload", .str "not valid base64 or json @@@")],
   .obj [("payload", .obj [("message", .obj [("call", .obj [])])])],
   .obj [("payload", .obj [("message", .obj [
      ("call", .obj [("id", .str "X")]),
      ("durationSeconds", .str "abc"),
      ("artifact", .obj [("messages", .arr [
         .obj [("secondsFromStart", .num 5 0)]])])])])]]

/-- Claim C1: a successful aggregation run yields the first-occurrence
dedup (keyed on `callID` under Python equality) of the per-record
extraction sequence taken in input order: at most one record per
distinct `callID` survives, the survivor is the one built from the
first record yielding that `callID` (later duplicates are dropped, not
merged), and the output is ordered by first occurrence. -/
theorem claim_c1 (ws rs : List JVal) (h : process_webhooks ws = .ok rs) :
    ∃ es, extractAll ws = .ok es ∧ rs = firstOccurDedup es [] ∧
      List.Pairwise (fun a b => pyEq (getCallID b) (getCallID a) = false) rs := by
  obtain ⟨es, he, hd⟩ := processAux_dedup ws [] rs h
  refine ⟨es, he, hd, ?_⟩
  rw [hd]
  exact dedup_pairwise es []

/-- Witness for C1 at the spec's `[A, B, A, C]` example: the aggregate
order is `A, B, C` and the surviving `A`-record keeps the first
record's duration. -/
theorem claim_c1_witness :
    process_webhooks exampleWebhooks = .ok exampleAggregate ∧
    (∃ es, extractAll exampleWebhooks = .ok es ∧
      exampleAggregate = firstOccurDedup es [] ∧
      List.Pairwise (fun a b => pyEq (getCallID b) (getCallID a) = false)
        exampleAggregate) :=
  ⟨rfl, claim_c1 exampleWebhooks exampleAggregate rfl⟩

/-- Claim C2: in every extracted record, the `difference` field is the
float coercion of `vapiCallDuration` minus the float coercion of
`lastMessageTimeStamp` whenever both coercions succeed, and is absent
(`None`) whenever either field is absent or either coercion fails. -/
theorem claim_c2 (p r : JVal) (h : extract_call_data p = .ok (some r)) :
    (∀ x y, pyFloat (recField r "vapiCallDuration") = some x →
        pyFloat (recField r "lastMessageTimeStamp") = some y →
        ∃ m e, recField r "difference" = .num m e ∧
          decVal m e = decVal x.1 x.2 - decVal y.1 y.2) ∧
    ((pyFloat (recField r "vapiCallDuration") = none ∨
      pyFloat (recField r "lastMessageTimeStamp") = none) →
      recField r "difference" = .null) := by
  obtain ⟨pl, ml, cl, al, ts, hp, hml, hcl, htr, hal, hts, hr⟩ := extract_ok_shape h
  subst hr
  have hvap : recField (extractRecord cl ml ts) "vapiCallDuration"
      = fieldsGetD ml "durationSeconds" .null := rfl
  have hlts : recField (extractRecord cl ml ts) "lastMessageTimeStamp" = ts := rfl
  have hdif : recField (extractRecord cl ml ts) "difference"
      = computeDiff (fieldsGetD ml "durationSeconds" .null) ts := rfl
  rw [hvap, hlts, hdif]
  constructor
  · intro x y hx hy
    exact ⟨(decSub x y).1, (decSub x y).2, computeDiff_some hx hy, decVal_decSub x y⟩
  · intro hnone
    exact computeDiff_none hnone

/-- Witness for C2 at the spec's example (`durationSeconds = 62.5`,
last `secondsFromStart = 60.0`): the difference is the decimal of
value `2.5`. -/
theorem claim_c2_witness :
    ∃ m e, recField exampleDiffRecord "difference" = .num m e ∧
      decVal m e = decVal 625 1 - decVal 600 1 :=
  (claim_c2 exampleDiffPayload exampleDiffRecord (by rfl)).1 (625, 1) (600, 1)
    (by rfl) (by rfl)

/-- Claim C3 (amended): the decode-extract-aggregate pipeline never
raises provided every present nesting is of the expected kind (the
decoded payload, `message`, `call` and `artifact` are mappings where
present, `messages` is a sequence with mapping elements at its tail or
a falsy value, and a truthy identifier is hashable); anomalies such as
undecodable payloads, missing nestings, missing identifiers and
non-numeric fields then degrade to less data, never to an abort. -/
theorem claim_c3 (ws : List JVal) (h : ∀ w ∈ ws, benignWebhook w = true) :
    ∃ rs, process_webhooks ws = .ok rs :=
  processAux_benign ws h []

/-- Counterexample for C3 as stated: a stored record whose decoded
payload has a non-mapping `message` makes the run abort with an
`AttributeError` instead of degrading. -/
theorem claim_c3_counterexample :
    process_webhooks [.obj [("payload", .obj [("message", .arr [])])]]
      = .error "AttributeError" := rfl

/-- Witness for C3 (amended) on records exercising an undecodable
payload, a missing identifier and a non-numeric duration. -/
theorem claim_c3_witness :
    ∃ rs, process_webhooks exampleBenignWebhooks = .ok rs :=
  claim_c3 exampleBenignWebhooks (by decide)

/-- Claim C4: decoding never raises; a string on which both strategies
fail decodes to the empty mapping, and any input that is neither a
mapping nor a string decodes to the empty mapping.  (Totality is by
construction: `decode_payload` is a total function.) -/
theorem claim_c4 :
    (∀ s : String, decodeStrategy1 s = none → jsonParse s = none →
       decode_payload (.str s) = .obj []) ∧
    (∀ v : JVal, nonDocInput v → decode_payload v = .obj []) := by
  constructor
  · intro s h1 h2
    simp [decode_payload, h1, h2]
  · intro v hv
    cases v with
    | null => rfl
    | bool b => rfl
    | num m e => rfl
    | arr l => rfl
    | str s => exact hv.elim
    | obj l => exact hv.elim

/-- Witness for C4 at the spec's garbage string, and at `None`. -/
theorem claim_c4_witness :
    decode_payload (.str "not valid base64 or json @@@") = .obj [] ∧
    decode_payload .null = .obj [] :=
  ⟨claim_c4.1 "not valid base64 or json @@@" (by rfl) (by rfl),
   claim_c4.2 .null trivial⟩

/-- Claim C5: decoding the base64 encoding of the gzip compression of
the JSON encoding of a canonical structured document returns that
document. -/
theorem claim_c5 (D : JVal) (hcanon : canonV D = true) (_hdoc : ∃ l, D = .obj l) :
    decode_payload (.str (String.mk (b64encode (gzipCompress
      (strToBytes (jsonEncode D)))))) = D := by
  simp only [decode_payload, decodeStrategy1_roundtrip D hcanon]

/-- Witness for C5 at a concrete two-field document. -/
theorem claim_c5_witness :
    decode_payload (.str (String.mk (b64encode (gzipCompress
      (strToBytes (jsonEncode exampleDoc)))))) = exampleDoc :=
  claim_c5 exampleDoc (by rfl) ⟨_, rfl⟩

/-- Claim C7: decoding is the identity on inputs that are already
structured mappings. -/
theorem claim_c7 : ∀ l : List (String × JVal), decode_payload (.obj l) = .obj l :=
  fun _ => rfl

/-- Claim C8 (amended): on documents whose `message` and
`message.call` nestings are mappings wherever present, an absent or
falsy `message.call.id` makes extraction return the "no record"
signal without raising. -/
theorem claim_c8 (p : JVal) (hnav : navigableToCall p = true)
    (hid : truthy (callIdSpec p) = false) : extract_call_data p = .ok none := by
  cases p with
  | obj pl =>
    simp only [navigableToCall] at hnav
    split at hnav
    case _ ml hml =>
      split at hnav
      case _ cl hcl =>
        rw [callId_agree hml hcl] at hid
        simp only [extract_call_data, hml, hcl, hid, Bool.false_eq_true, if_false]
      case _ hcl => cases hnav
    case _ hml => cases hnav
  | null => cases hnav
  | bool b => cases hnav
  | num m e => cases hnav
  | str s => cases hnav
  | arr l => cases hnav

/-- Counterexample for C8 as stated: in the document whose `message`
is a sequence, `message.call.id` is absent, yet extraction raises an
`AttributeError` instead of returning the absent signal. -/
theorem claim_c8_counterexample :
    truthy (callIdSpec (.obj [("message", .arr [])])) = false ∧
    ¬(extract_call_data (.obj [("message", .arr [])]) = .ok none) := by
  refine ⟨rfl, fun h => ?_⟩
  cases h

/-- Witness for C8 (amended) at the spec's two examples. -/
theorem claim_c8_witness :
    extract_call_data (.obj [("message", .obj [])]) = .ok none ∧
    extract_call_data (.obj [("message", .obj [("call", .obj [])])]) = .ok none :=
  ⟨claim_c8 (.obj [("message", .obj [])]) (by rfl) (by rfl),
   claim_c8 (.obj [("message", .obj [("call", .obj [])])]) (by rfl) (by rfl)⟩

/-- Claim C9: in every extracted record, `lastMessageTimeStamp` is the
`secondsFromStart` of the last element of `message.artifact.messages`,
and is absent when that sequence is missing or empty. -/
theorem claim_c9 (p r : JVal) (h : extract_call_data p = .ok (some r)) :
    recField r "lastMessageTimeStamp" = lastTsSpec p := by
  obtain ⟨pl, ml, cl, al, ts, hp, hml, hcl, htr, hal, hts, hr⟩ := extract_ok_shape h
  subst hr
  subst hp
  have h1 : recField (extractRecord cl ml ts) "lastMessageTimeStamp" = ts := rfl
  rw [h1, lastTs_agree hml hal hts]

/-- Witness for C9 at the spec's example
(`secondsFromStart` values `1` then `9` select `9`). -/
theorem claim_c9_witness :
    recField exampleLastRecord "lastMessageTimeStamp" = lastTsSpec exampleLastPayload ∧
    lastTsSpec exampleLastPayload = .num 9 0 :=
  ⟨claim_c9 exampleLastPayload exampleLastRecord (by rfl), rfl⟩

/-- Claim C10: every extracted record is a mapping with exactly the
eight keys in source order (absent optional values are stored as
explicit `None`, never as a missing key), its `callID` is truthy, and
its `dashboardURL` is the fixed base URL and query template with
`&c=` and the identifier appended. -/
theorem claim_c10 (p r : JVal) (h : extract_call_data p = .ok (some r)) :
    ∃ fields, r = .obj fields ∧
      fields.map Prod.fst = ["callID", "dashboardURL", "vapiCallDuration",
        "lastMessageTimeStamp", "difference", "startedAt", "endedAt", "endedReason"] ∧
      truthy (getCallID r) = true ∧
      pathGet r "dashboardURL" = some (.str (DASHBOARD_BASE_URL ++ "?" ++
        DASHBOARD_PARAMS ++ "&c=" ++ pyStr (getCallID r))) := by
  obtain ⟨pl, ml, cl, al, ts, hp, hml, hcl, htr, hal, hts, hr⟩ := extract_ok_shape h
  subst hr
  exact ⟨_, rfl, rfl, htr, rfl⟩

/-- Witness for C10 at a concrete record. -/
theorem claim_c10_witness :
    ∃ fields, exampleDiffRecord = .obj fields ∧
      fields.map Prod.fst = ["callID", "dashboardURL", "vapiCallDuration",
        "lastMessageTimeStamp", "difference", "startedAt", "endedAt", "endedReason"] ∧
      truthy (getCallID exampleDiffRecord) = true ∧
      pathGet exampleDiffRecord "dashboardURL" = some (.str (DASHBOARD_BASE_URL ++ "?" ++
        DASHBOARD_PARAMS ++ "&c=" ++ pyStr (getCallID exampleDiffRecord))) :=
  claim_c10 exampleDiffPayload exampleDiffRecord (by rfl)
